import Mathlib

/-! A software rasterization pipeline (`src/main.cpp`)

Shallow embedding of the depth/merge stage (`clear`, `point`), of the
rasterizer (`barycentricCoordinates`, `triangle`), of the `Color` type, of the
transform stage (`vertexShader`, `createProjectionMatrix`), of
`primitiveAssembly`, of `setupVertexArray` and of the branch taken by
`writeBMP`.

Conventions of the embedding:

* a finite C++ `float` is a rational number, so `float` values are `ℚ`;
  comparisons, `std::floor`, `std::ceil` and the float-to-integer conversion
  are exact on them.  In the first group of definitions arithmetic is exact:
  rounding and overflow of `float` operations are not modelled;
* the definitions named `Binary32.*` follow the same source lines with every
  operation rounded to binary32.  The statements whose truth depends on
  rounding (barycentric correctness, completeness of the scanned box, shared
  edges, the transform stage) are made about these;
* a `float` division may produce a value that is not finite (`x / 0` is an
  infinity or a NaN); that outcome is `none` in `Option ℚ`;
* the two global buffers (`zbuffer` and the SDL colour target) are an explicit
  `State` passed through `clear` and `point`;
* a `std::vector` is a `List`; a function that subscripts one returns `none`
  when a subscript is out of bounds;
* the library function `glm::normalize` (a square root) is a parameter
  `normalize` of the rasterizer, and so is the result `oor` of a conversion
  `static_cast<Uint8>` whose operand does not fit in eight bits, which C++
  leaves undefined.
-/

namespace SR2

/-! ## Data model -/

/-- The `Color` struct: four `Uint8` channels, held as naturals below 256. -/
structure Color where
  r : ℕ
  g : ℕ
  b : ℕ
  a : ℕ
deriving DecidableEq

/-- A `glm::vec3` with finite components. -/
structure Vec3 where
  x : ℚ
  y : ℚ
  z : ℚ
deriving DecidableEq

/-- The `Vertex` struct. -/
structure Vertex where
  position : Vec3
  color : Color
deriving DecidableEq

/-- The `Fragment` struct. -/
structure Fragment where
  position : Vec3
  color : Color
deriving DecidableEq

/-- The constant `WINDOW_WIDTH`. -/
def WINDOW_WIDTH : ℕ := 840

/-- The constant `WINDOW_HEIGHT`. -/
def WINDOW_HEIGHT : ℕ := 680

/-! ## Depth / merge stage -/

/-- Conversion of a `float` to an integer type: truncation toward zero. -/
def ftrunc (q : ℚ) : ℤ := if 0 ≤ q then ⌊q⌋ else ⌈q⌉

/-- The index a `float` subscript denotes (`zbuffer[f.position.y]`, and the
`int` argument of `SDL_RenderDrawPoint`). -/
def fidx (q : ℚ) : ℕ := (ftrunc q).toNat

/-- The two global buffers: `zbuffer[row][column]` and the colour target of the
SDL renderer, addressed as `target x y`. -/
structure State where
  zbuffer : ℕ → ℕ → ℚ
  target : ℕ → ℕ → Color

/-- The function `clear`: the colour target is cleared with the draw colour
`(0, 0, 0, 0)` and every depth cell is filled with `99999.0f`. -/
def clear (_s : State) : State :=
  { zbuffer := fun _ _ => 99999
    target := fun _ _ => ⟨0, 0, 0, 0⟩ }

/-- The function `point`: bounds test, depth test, then the write of the colour
and of the depth. -/
def point (s : State) (f : Fragment) : State :=
  if f.position.y < WINDOW_HEIGHT ∧ f.position.x < WINDOW_WIDTH ∧ f.position.y > 0 ∧
      f.position.x > 0 ∧ f.position.z < s.zbuffer (fidx f.position.y) (fidx f.position.x) then
    { zbuffer := fun j i =>
        if j = fidx f.position.y ∧ i = fidx f.position.x then f.position.z else s.zbuffer j i
      target := fun x y =>
        if x = fidx f.position.x ∧ y = fidx f.position.y then f.color else s.target x y }
  else s

/-- The function `fragmentShader`. -/
def fragmentShader (fragment : Fragment) : Fragment := fragment

/-- The last loop of `render`: `point(fragmentShader(fragment))` for every
fragment, in order. -/
def renderFragments (s : State) (fragments : List Fragment) : State :=
  fragments.foldl (fun st fragment => point st (fragmentShader fragment)) s

/-! ### Vocabulary of the depth-buffer statements -/

/-- The bounds test of `point`. -/
def inBounds (f : Fragment) : Prop :=
  f.position.y < WINDOW_HEIGHT ∧ f.position.x < WINDOW_WIDTH ∧ f.position.y > 0 ∧
    f.position.x > 0

instance (f : Fragment) : Decidable (inBounds f) := by
  unfold inBounds; infer_instance

/-- The fragment passes the bounds test and its pixel is column `i`, row `j`. -/
def reaches (i j : ℕ) (f : Fragment) : Prop :=
  inBounds f ∧ fidx f.position.x = i ∧ fidx f.position.y = j

instance (i j : ℕ) (f : Fragment) : Decidable (reaches i j f) := by
  unfold reaches; infer_instance

/-- The depths of the fragments of a sequence that reach pixel `(i, j)`. -/
def depthsAt (i j : ℕ) (fs : List Fragment) : List ℚ :=
  (fs.filter (fun f => decide (reaches i j f))).map (fun f => f.position.z)

/-! ## Colour construction -/

/-- The conversion `static_cast<Uint8>(x)` of a `float`: the value is
truncated toward zero; when the truncated value does not fit in `[0, 255]` the
C++ conversion is undefined, and the result is then whatever the target
produces, `oor x` reduced to eight bits. -/
def castUint8 (oor : ℚ → ℕ) (x : ℚ) : ℕ :=
  if 0 ≤ ftrunc x ∧ ftrunc x ≤ 255 then (ftrunc x).toNat else oor x % 256

/-- The library function `std::clamp(v, lo, hi)` on `Uint8` values. -/
def clamp (v lo hi : ℕ) : ℕ := if v < lo then lo else if hi < v then hi else v

/-- The constructor `Color(float red, float green, float blue, float alpha)`:
every channel is scaled by 255, converted to `Uint8` and only then clamped. -/
def Color.ofFloats (oor : ℚ → ℕ) (red green blue alpha : ℚ) : Color :=
  { r := clamp (castUint8 oor (red * 255)) 0 255
    g := clamp (castUint8 oor (green * 255)) 0 255
    b := clamp (castUint8 oor (blue * 255)) 0 255
    a := clamp (castUint8 oor (alpha * 255)) 0 255 }

/-! ## Rasterizer -/

/-- Component-wise difference of two vectors (`B - A` in `triangle`). -/
def Vec3.sub (u v : Vec3) : Vec3 := ⟨u.x - v.x, u.y - v.y, u.z - v.z⟩

/-- Component-wise sum of two vectors. -/
def Vec3.add (u v : Vec3) : Vec3 := ⟨u.x + v.x, u.y + v.y, u.z + v.z⟩

/-- A vector scaled by a number. -/
def Vec3.smul (k : ℚ) (v : Vec3) : Vec3 := ⟨k * v.x, k * v.y, k * v.z⟩

/-- The library function `glm::cross`. -/
def cross (u v : Vec3) : Vec3 :=
  ⟨u.y * v.z - v.y * u.z, u.z * v.x - v.z * u.x, u.x * v.y - v.x * u.y⟩

/-- The library function `glm::dot`. -/
def dot (u v : Vec3) : ℚ := u.x * v.x + u.y * v.y + u.z * v.z

/-- The global `light`, `normalize(glm::vec3(0.5, 2, 2))`; the library function
`glm::normalize` is a parameter. -/
def light (normalize : Vec3 → Vec3) : Vec3 := normalize ⟨1 / 2, 2, 2⟩

/-- A `float` division: the quotient when the divisor is not zero, and a value
that is not finite (an infinity or a NaN, `none`) when it is. -/
def fdiv (n d : ℚ) : Option ℚ := if d = 0 then none else some (n / d)

/-- A `float` subtraction: not finite as soon as one operand is not. -/
def fsub : Option ℚ → Option ℚ → Option ℚ
  | some p, some q => some (p - q)
  | _, _ => none

/-- A `glm::vec3` whose components may fail to be finite. -/
structure FVec3 where
  x : Option ℚ
  y : Option ℚ
  z : Option ℚ
deriving DecidableEq

/-- The function `barycentricCoordinates`. -/
def barycentricCoordinates (P A B C : Vec3) : FVec3 :=
  let w := fdiv ((B.y - C.y) * (P.x - C.x) + (C.x - B.x) * (P.y - C.y))
    ((B.y - C.y) * (A.x - C.x) + (C.x - B.x) * (A.y - C.y))
  let v := fdiv ((C.y - A.y) * (P.x - C.x) + (A.x - C.x) * (P.y - C.y))
    ((B.y - C.y) * (A.x - C.x) + (C.x - B.x) * (A.y - C.y))
  let u := fsub (fsub (some 1) w) v
  ⟨w, v, u⟩

/-- The values of a loop `for (float t = lo; t <= hi; t++)` whose bounds are
integers. -/
def loopRange (lo hi : ℤ) : List ℤ :=
  (List.range (hi - lo + 1).toNat).map (fun (k : ℕ) => lo + (k : ℤ))

/-- The body of the two loops of `triangle` at the pixel `(x, y)`: the
fragment pushed, if any.  A comparison with a value that is not finite is
false, so such a pixel pushes nothing. -/
def trianglePixel (oor : ℚ → ℕ) (normalize : Vec3 → Vec3) (a b c : Vertex) (x y : ℤ) :
    Option Fragment :=
  let N := normalize (cross (b.position.sub a.position) (c.position.sub a.position))
  let bar := barycentricCoordinates ⟨x, y, 0⟩ a.position b.position c.position
  match bar.x, bar.y, bar.z with
  | some w, some v, some u =>
    if w ≤ 1 ∧ w ≥ 0 ∧ v ≤ 1 ∧ v ≥ 0 ∧ u ≤ 1 ∧ u ≥ 0 then
      let intensity := dot N (light normalize) * 10
      some ⟨⟨x, y, a.position.z * w + b.position.z * v + c.position.z * u⟩,
        Color.ofFloats oor (intensity * 255) (intensity * 255) (intensity * 255) 1⟩
    else none
  | _, _, _ => none

/-- Lower bound of the columns scanned by `triangle`: `std::floor(minX)`. -/
def boxMinX (A B C : Vec3) : ℤ := ⌊min (min A.x B.x) C.x⌋

/-- Lower bound of the rows scanned by `triangle`: `std::floor(minY)`. -/
def boxMinY (A B C : Vec3) : ℤ := ⌊min (min A.y B.y) C.y⌋

/-- Upper bound of the columns scanned by `triangle`: `std::ceil(maxX)`. -/
def boxMaxX (A B C : Vec3) : ℤ := ⌈max (max A.x B.x) C.x⌉

/-- Upper bound of the rows scanned by `triangle`: `std::ceil(maxY)`. -/
def boxMaxY (A B C : Vec3) : ℤ := ⌈max (max A.y B.y) C.y⌉

/-- The function `triangle`: rows outermost, columns innermost, one fragment
pushed per accepted pixel. -/
def triangle (oor : ℚ → ℕ) (normalize : Vec3 → Vec3) (a b c : Vertex) : List Fragment :=
  (loopRange (boxMinY a.position b.position c.position)
      (boxMaxY a.position b.position c.position)).flatMap fun y =>
    (loopRange (boxMinX a.position b.position c.position)
      (boxMaxX a.position b.position c.position)).filterMap fun x =>
        trianglePixel oor normalize a b c x y

/-- The colour `triangle` gives to every fragment of one triangle: the
expression `Color(intensity * 255, intensity * 255, intensity * 255)` with
`intensity = glm::dot(N, light) * 10`. -/
def flatColor (oor : ℚ → ℕ) (normalize : Vec3 → Vec3) (a b c : Vertex) : Color :=
  Color.ofFloats oor
    (dot (normalize (cross (b.position.sub a.position) (c.position.sub a.position)))
      (light normalize) * 10 * 255)
    (dot (normalize (cross (b.position.sub a.position) (c.position.sub a.position)))
      (light normalize) * 10 * 255)
    (dot (normalize (cross (b.position.sub a.position) (c.position.sub a.position)))
      (light normalize) * 10 * 255) 1

/-- The barycentric denominator of a triangle. -/
def denominator (A B C : Vec3) : ℚ :=
  (B.y - C.y) * (A.x - C.x) + (C.x - B.x) * (A.y - C.y)

/-! ## Colour arithmetic -/

/-- The constructor `Color(int red, int green, int blue, int alpha)`: every
channel is clamped into `[0, 255]` and then converted to `Uint8`. -/
def Color.ofInts (red green blue alpha : ℤ) : Color :=
  { r := (min (max red 0) 255).toNat
    g := (min (max green 0) 255).toNat
    b := (min (max blue 0) 255).toNat
    a := (min (max alpha 0) 255).toNat }

/-- The operator `Color::operator+`: the `int` sums, capped at 255, go to the
`int` constructor. -/
def Color.add (c other : Color) : Color :=
  Color.ofInts (min 255 ((c.r : ℤ) + (other.r : ℤ))) (min 255 ((c.g : ℤ) + (other.g : ℤ)))
    (min 255 ((c.b : ℤ) + (other.b : ℤ))) (min 255 ((c.a : ℤ) + (other.a : ℤ)))

/-- The operator `Color::operator*(float factor)`: every product is converted
to `Uint8` and only then clamped; the four `Uint8` arguments select the `int`
constructor. -/
def Color.mul (oor : ℚ → ℕ) (c : Color) (factor : ℚ) : Color :=
  Color.ofInts ((clamp (castUint8 oor ((c.r : ℚ) * factor)) 0 255 : ℕ) : ℤ)
    ((clamp (castUint8 oor ((c.g : ℚ) * factor)) 0 255 : ℕ) : ℤ)
    ((clamp (castUint8 oor ((c.b : ℚ) * factor)) 0 255 : ℕ) : ℤ)
    ((clamp (castUint8 oor ((c.a : ℚ) * factor)) 0 255 : ℕ) : ℤ)

/-! ## Transform stage -/

/-- A `glm::mat4`, as the matrix it denotes. -/
abbrev Mat4 := Matrix (Fin 4) (Fin 4) ℚ

/-- The `Uniform` struct. -/
structure Uniform where
  model : Mat4
  view : Mat4
  projection : Mat4
  viewport : Mat4

/-- The function `vertexShader`.  The product is taken as C++ groups it, the
four matrices first and the vector last; the result is `none` when the
perspective divide is by zero (the position is then not finite). -/
def vertexShader (vertex : Vertex) (u : Uniform) : Option Vertex :=
  let v : Fin 4 → ℚ := ![vertex.position.x, vertex.position.y, vertex.position.z, 1]
  let r : Fin 4 → ℚ := (u.viewport * u.projection * u.view * u.model).mulVec v
  match fdiv (r 0) (r 3), fdiv (r 1) (r 3), fdiv (r 2) (r 3) with
  | some x, some y, some z => some ⟨⟨x, y, z⟩, vertex.color⟩
  | _, _, _ => none

/-- The local `aspectRatio` of `createProjectionMatrix`:
`WINDOW_WIDTH / WINDOW_HEIGHT` is a division of two `int`, converted to `float`
afterwards. -/
def aspectRatio : ℚ := ((WINDOW_WIDTH / WINDOW_HEIGHT : ℕ) : ℚ)

/-- The function `createProjectionMatrix`; the library functions
`glm::radians` and `glm::perspective` are parameters. -/
def createProjectionMatrix (radians : ℚ → ℚ) (perspective : ℚ → ℚ → ℚ → ℚ → Mat4) : Mat4 :=
  perspective (radians 85) aspectRatio (1 / 10) 100

/-! ## Primitive assembly and vertex array -/

/-- The results of a sequence of reads: all of them when every read is in
bounds, `none` as soon as one is not (an out-of-bounds `operator[]`). -/
def collect {α : Type} : List (Option α) → Option (List α)
  | [] => some []
  | none :: _ => none
  | some x :: rest => (collect rest).map (fun out => x :: out)

/-- The indices read by one pass of the loop of `primitiveAssembly`. -/
def groupReads (i : ℕ) : List ℕ := [i, i + 1, i + 2]

/-- One pass of the loop of `primitiveAssembly` at index `i`: the group of
`transformedVertices[i]`, `[i+1]`, `[i+2]`. -/
def vertexGroup (transformedVertices : List Vertex) (i : ℕ) : Option (List Vertex) :=
  collect ((groupReads i).map (fun k => transformedVertices[k]?))

/-- The values of `i` in `for (int i = 0; i < size; i += 3)`: the multiples
`3 * k` below `size`. -/
def groupStarts (size : ℕ) : List ℕ := (List.range ((size + 2) / 3)).map (fun (k : ℕ) => 3 * k)

/-- The function `primitiveAssembly`. -/
def primitiveAssembly (transformedVertices : List Vertex) : Option (List (List Vertex)) :=
  collect ((groupStarts transformedVertices.length).map (vertexGroup transformedVertices))

/-- Every index `primitiveAssembly` reads on a sequence of the given size, in
order. -/
def primitiveAssemblyReads (size : ℕ) : List ℕ := (groupStarts size).flatMap groupReads

/-- The `Face` struct: each entry is a `std::array<int, 3>` of a position, a
texture and a normal index. -/
structure Face where
  vertexIndices : List (ℤ × ℤ × ℤ)

/-- The read `vertices[vertexIndices[0]]`: in bounds when the `int` index is
not negative and below the size. -/
def vertexAt (vertices : List Vec3) (vertexIndices : ℤ × ℤ × ℤ) : Option Vec3 :=
  if 0 ≤ vertexIndices.1 then vertices[vertexIndices.1.toNat]? else none

/-- The function `setupVertexArray`. -/
def setupVertexArray (vertices : List Vec3) (faces : List Face) : Option (List Vec3) :=
  collect ((faces.flatMap (fun face => face.vertexIndices)).map (vertexAt vertices))

/-! ## Depth export -/

/-- The constant `std::numeric_limits<float>::max()`. -/
def FLT_MAX : ℚ := (2 ^ 24 - 1) * 2 ^ 104

/-- The body of the scan of `writeBMP`: a value other than `99999.0f` updates
`zMin` and `zMax`. -/
def scanCell (acc : ℚ × ℚ) (val : ℚ) : ℚ × ℚ :=
  if val ≠ 99999 then (min acc.1 val, max acc.2 val) else acc

/-- The scan of `writeBMP` over all rows and cells: `(zMin, zMax)`, from
`max()` and `lowest()`. -/
def depthRange (zbuffer : ℕ → ℕ → ℚ) : ℚ × ℚ :=
  (List.range WINDOW_HEIGHT).foldl
    (fun acc j => (List.range WINDOW_WIDTH).foldl (fun acc2 i => scanCell acc2 (zbuffer j i)) acc)
    (FLT_MAX, -FLT_MAX)

/-- The three ways `writeBMP` ends: the warning of the test `zMin == zMax`, the
file that could not be opened, or the pixel loop, which computes
`(zbuffer[y][x] - zMin) / (zMax - zMin)` for every cell. -/
inductive Export where
  | reported : Export
  | notOpened : Export
  | normalised (zMin zMax : ℚ) : Export
deriving DecidableEq

/-- The function `writeBMP`, up to the branch it takes; whether the file opens
is a parameter. -/
def writeBMP (fileOpens : Bool) (s : State) : Export :=
  if (depthRange s.zbuffer).1 = (depthRange s.zbuffer).2 then Export.reported
  else if fileOpens = false then Export.notOpened
  else Export.normalised (depthRange s.zbuffer).1 (depthRange s.zbuffer).2

/-- The cells of `zbuffer` that `point` reads and writes, as (row, column): the
read of the depth test happens once the four bounds comparisons hold, the
write once the depth test holds too. -/
def pointAccesses (s : State) (f : Fragment) : List (ℕ × ℕ) :=
  if f.position.y < WINDOW_HEIGHT ∧ f.position.x < WINDOW_WIDTH ∧ f.position.y > 0 ∧
      f.position.x > 0 then
    (fidx f.position.y, fidx f.position.x) ::
      (if f.position.z < s.zbuffer (fidx f.position.y) (fidx f.position.x) then
        [(fidx f.position.y, fidx f.position.x)] else [])
  else []

/-! ## Binary32 arithmetic

The definitions above compute in exact rationals.  The definitions of this
section follow the same source lines with every arithmetic operation rounded
to binary32 (24-bit significand, round to nearest, ties to even, gradual
underflow), one rounding per operation and no fused multiply-add.  Overflow
is not modelled: a result beyond `FLT_MAX`, which binary32 turns into an
infinity, is rounded like any other.  The predicate `Binary32.isFloat` says
that a number is a finite binary32 number, `FLT_MAX` included. -/

/-- Rounding of a number to the nearest integer, a tie going to the even
neighbour. -/
def Binary32.roundHalfEven (x : ℚ) : ℤ :=
  if x - ⌊x⌋ < 1 / 2 then ⌊x⌋
  else if 1 / 2 < x - ⌊x⌋ then ⌊x⌋ + 1
  else if ⌊x⌋ % 2 = 0 then ⌊x⌋ else ⌊x⌋ + 1

/-- The binary32 value of a real result: with `2 ^ e ≤ |q| < 2 ^ (e + 1)` the
representable numbers around `q` are the multiples of `2 ^ (e - 23)`, of
`2 ^ (-149)` when `e < -126` (subnormal numbers), and `q` goes to the nearest
one. -/
def Binary32.fround (q : ℚ) : ℚ :=
  if q = 0 then 0
  else (Binary32.roundHalfEven (q / 2 ^ (max (Int.log 2 |q|) (-126) - 23)) : ℚ) *
    2 ^ (max (Int.log 2 |q|) (-126) - 23)

/-- The number `q` is a finite binary32 number: rounding leaves it unchanged
and its magnitude is at most `FLT_MAX`. -/
def Binary32.isFloat (q : ℚ) : Prop := Binary32.fround q = q ∧ -FLT_MAX ≤ q ∧ q ≤ FLT_MAX

/-- A binary32 division: the rounded quotient, or a value that is not finite
(`none`) when the divisor is zero. -/
def Binary32.fdiv (n d : ℚ) : Option ℚ := if d = 0 then none else some (Binary32.fround (n / d))

/-- A binary32 subtraction: not finite as soon as one operand is not. -/
def Binary32.fsub : Option ℚ → Option ℚ → Option ℚ
  | some p, some q => some (Binary32.fround (p - q))
  | _, _ => none

/-- The function `barycentricCoordinates` in binary32. -/
def Binary32.barycentricCoordinates (P A B C : Vec3) : FVec3 :=
  let w := Binary32.fdiv
    (Binary32.fround
      (Binary32.fround (Binary32.fround (B.y - C.y) * Binary32.fround (P.x - C.x)) +
        Binary32.fround (Binary32.fround (C.x - B.x) * Binary32.fround (P.y - C.y))))
    (Binary32.fround
      (Binary32.fround (Binary32.fround (B.y - C.y) * Binary32.fround (A.x - C.x)) +
        Binary32.fround (Binary32.fround (C.x - B.x) * Binary32.fround (A.y - C.y))))
  let v := Binary32.fdiv
    (Binary32.fround
      (Binary32.fround (Binary32.fround (C.y - A.y) * Binary32.fround (P.x - C.x)) +
        Binary32.fround (Binary32.fround (A.x - C.x) * Binary32.fround (P.y - C.y))))
    (Binary32.fround
      (Binary32.fround (Binary32.fround (B.y - C.y) * Binary32.fround (A.x - C.x)) +
        Binary32.fround (Binary32.fround (C.x - B.x) * Binary32.fround (A.y - C.y))))
  let u := Binary32.fsub (Binary32.fsub (some 1) w) v
  ⟨w, v, u⟩

/-- Every arithmetic operation of `barycentricCoordinates` at `P`, `A`, `B`,
`C` has a result that is a finite binary32 number, so that none of them
rounds, overflows or underflows. -/
def Binary32.exactAt (P A B C : Vec3) : Prop :=
  (Binary32.isFloat (B.y - C.y) ∧ Binary32.isFloat (P.x - C.x) ∧
    Binary32.isFloat (C.x - B.x) ∧ Binary32.isFloat (P.y - C.y) ∧
    Binary32.isFloat (A.x - C.x) ∧ Binary32.isFloat (A.y - C.y) ∧
    Binary32.isFloat (C.y - A.y)) ∧
  (Binary32.isFloat ((B.y - C.y) * (P.x - C.x)) ∧
    Binary32.isFloat ((C.x - B.x) * (P.y - C.y)) ∧
    Binary32.isFloat ((B.y - C.y) * (A.x - C.x)) ∧
    Binary32.isFloat ((C.x - B.x) * (A.y - C.y)) ∧
    Binary32.isFloat ((C.y - A.y) * (P.x - C.x)) ∧
    Binary32.isFloat ((A.x - C.x) * (P.y - C.y))) ∧
  (Binary32.isFloat ((B.y - C.y) * (P.x - C.x) + (C.x - B.x) * (P.y - C.y)) ∧
    Binary32.isFloat ((B.y - C.y) * (A.x - C.x) + (C.x - B.x) * (A.y - C.y)) ∧
    Binary32.isFloat ((C.y - A.y) * (P.x - C.x) + (A.x - C.x) * (P.y - C.y))) ∧
  (Binary32.isFloat (((B.y - C.y) * (P.x - C.x) + (C.x - B.x) * (P.y - C.y)) /
      ((B.y - C.y) * (A.x - C.x) + (C.x - B.x) * (A.y - C.y))) ∧
    Binary32.isFloat (((C.y - A.y) * (P.x - C.x) + (A.x - C.x) * (P.y - C.y)) /
      ((B.y - C.y) * (A.x - C.x) + (C.x - B.x) * (A.y - C.y))) ∧
    Binary32.isFloat (1 - ((B.y - C.y) * (P.x - C.x) + (C.x - B.x) * (P.y - C.y)) /
      ((B.y - C.y) * (A.x - C.x) + (C.x - B.x) * (A.y - C.y))) ∧
    Binary32.isFloat (1 - ((B.y - C.y) * (P.x - C.x) + (C.x - B.x) * (P.y - C.y)) /
        ((B.y - C.y) * (A.x - C.x) + (C.x - B.x) * (A.y - C.y)) -
      ((C.y - A.y) * (P.x - C.x) + (A.x - C.x) * (P.y - C.y)) /
        ((B.y - C.y) * (A.x - C.x) + (C.x - B.x) * (A.y - C.y))))

/-- The values of `t` in a loop `for (float t = lo; t <= hi; t++)`, the
increment being rounded; `none` when the loop is still running after `fuel`
passes (it never ends once `t + 1` rounds back to `t`). -/
def Binary32.loopValues (hi : ℚ) : ℕ → ℚ → Option (List ℚ)
  | 0, _ => none
  | fuel + 1, t =>
    if t ≤ hi then
      (Binary32.loopValues hi fuel (Binary32.fround (t + 1))).map (fun rest => t :: rest)
    else some []

/-- The constructor `Color(float red, float green, float blue, float alpha)`
in binary32. -/
def Binary32.colorOfFloats (oor : ℚ → ℕ) (red green blue alpha : ℚ) : Color :=
  { r := clamp (castUint8 oor (Binary32.fround (red * 255))) 0 255
    g := clamp (castUint8 oor (Binary32.fround (green * 255))) 0 255
    b := clamp (castUint8 oor (Binary32.fround (blue * 255))) 0 255
    a := clamp (castUint8 oor (Binary32.fround (alpha * 255))) 0 255 }

/-- The body of the two loops of `triangle` at `(x, y)` in binary32.  The
value `lit` of `glm::dot(N, light)`, which the library computes once for the
triangle, is a parameter. -/
def Binary32.trianglePixel (oor : ℚ → ℕ) (lit : ℚ) (a b c : Vertex) (x y : ℚ) :
    Option Fragment :=
  let bar := Binary32.barycentricCoordinates ⟨x, y, 0⟩ a.position b.position c.position
  match bar.x, bar.y, bar.z with
  | some w, some v, some u =>
    if w ≤ 1 ∧ w ≥ 0 ∧ v ≤ 1 ∧ v ≥ 0 ∧ u ≤ 1 ∧ u ≥ 0 then
      some ⟨⟨x, y,
          Binary32.fround (Binary32.fround (Binary32.fround (a.position.z * w) +
            Binary32.fround (b.position.z * v)) + Binary32.fround (c.position.z * u))⟩,
        Binary32.colorOfFloats oor (Binary32.fround (Binary32.fround (lit * 10) * 255))
          (Binary32.fround (Binary32.fround (lit * 10) * 255))
          (Binary32.fround (Binary32.fround (lit * 10) * 255)) 1⟩
    else none
  | _, _, _ => none

/-- The function `triangle` in binary32; `none` when one of the two loops is
still running after `fuel` passes. -/
def Binary32.triangle (oor : ℚ → ℕ) (lit : ℚ) (fuel : ℕ) (a b c : Vertex) :
    Option (List Fragment) :=
  match Binary32.loopValues (boxMaxY a.position b.position c.position) fuel
      (boxMinY a.position b.position c.position),
    Binary32.loopValues (boxMaxX a.position b.position c.position) fuel
      (boxMinX a.position b.position c.position) with
  | some ys, some xs =>
    some (ys.flatMap fun y => xs.filterMap fun x => Binary32.trianglePixel oor lit a b c x y)
  | _, _ => none

/-- The product of two `glm::mat4` in binary32: every product and every sum
is rounded, the four terms of an entry being added from left to right, as in
the library's `SrcA0 * SrcB0[0] + SrcA1 * SrcB0[1] + SrcA2 * SrcB0[2] +
SrcA3 * SrcB0[3]`. -/
def Binary32.mulMM (m n : Mat4) : Mat4 := fun i j =>
  Binary32.fround (Binary32.fround (Binary32.fround
    (Binary32.fround (m i 0 * n 0 j) + Binary32.fround (m i 1 * n 1 j)) +
      Binary32.fround (m i 2 * n 2 j)) + Binary32.fround (m i 3 * n 3 j))

/-- The product of a `glm::mat4` and a `glm::vec4` in binary32: the library
adds the four rounded products in two pairs, `(Mul0 + Mul1) + (Mul2 + Mul3)`. -/
def Binary32.mulMV (m : Mat4) (v : Fin 4 → ℚ) : Fin 4 → ℚ := fun i =>
  Binary32.fround
    (Binary32.fround (Binary32.fround (m i 0 * v 0) + Binary32.fround (m i 1 * v 1)) +
      Binary32.fround (Binary32.fround (m i 2 * v 2) + Binary32.fround (m i 3 * v 3)))

/-- The function `vertexShader` in binary32: the four matrices are multiplied
from left to right, then the vector, then the three divisions. -/
def Binary32.vertexShader (vertex : Vertex) (u : Uniform) : Option Vertex :=
  match Binary32.fdiv
      (Binary32.mulMV (Binary32.mulMM (Binary32.mulMM (Binary32.mulMM u.viewport u.projection)
        u.view) u.model) ![vertex.position.x, vertex.position.y, vertex.position.z, 1] 0)
      (Binary32.mulMV (Binary32.mulMM (Binary32.mulMM (Binary32.mulMM u.viewport u.projection)
        u.view) u.model) ![vertex.position.x, vertex.position.y, vertex.position.z, 1] 3),
    Binary32.fdiv
      (Binary32.mulMV (Binary32.mulMM (Binary32.mulMM (Binary32.mulMM u.viewport u.projection)
        u.view) u.model) ![vertex.position.x, vertex.position.y, vertex.position.z, 1] 1)
      (Binary32.mulMV (Binary32.mulMM (Binary32.mulMM (Binary32.mulMM u.viewport u.projection)
        u.view) u.model) ![vertex.position.x, vertex.position.y, vertex.position.z, 1] 3),
    Binary32.fdiv
      (Binary32.mulMV (Binary32.mulMM (Binary32.mulMM (Binary32.mulMM u.viewport u.projection)
        u.view) u.model) ![vertex.position.x, vertex.position.y, vertex.position.z, 1] 2)
      (Binary32.mulMV (Binary32.mulMM (Binary32.mulMM (Binary32.mulMM u.viewport u.projection)
        u.view) u.model) ![vertex.position.x, vertex.position.y, vertex.position.z, 1] 3) with
  | some x, some y, some z => some ⟨⟨x, y, z⟩, vertex.color⟩
  | _, _, _ => none

/-- The vector `r` of a transform applied from right to left in binary32:
the model matrix is applied to the vertex first, the viewport matrix last. -/
def Binary32.transformRightToLeft (vertex : Vertex) (u : Uniform) : Fin 4 → ℚ :=
  Binary32.mulMV u.viewport (Binary32.mulMV u.projection (Binary32.mulMV u.view
    (Binary32.mulMV u.model ![vertex.position.x, vertex.position.y, vertex.position.z, 1])))

/-- Every operation of the binary32 product of `m` and `n` has a result that
is a finite binary32 number. -/
def Binary32.exactMM (m n : Mat4) : Prop :=
  ∀ i j : Fin 4,
    Binary32.isFloat (m i 0 * n 0 j) ∧ Binary32.isFloat (m i 1 * n 1 j) ∧
    Binary32.isFloat (m i 2 * n 2 j) ∧ Binary32.isFloat (m i 3 * n 3 j) ∧
    Binary32.isFloat (m i 0 * n 0 j + m i 1 * n 1 j) ∧
    Binary32.isFloat (m i 0 * n 0 j + m i 1 * n 1 j + m i 2 * n 2 j) ∧
    Binary32.isFloat (m i 0 * n 0 j + m i 1 * n 1 j + m i 2 * n 2 j + m i 3 * n 3 j)

/-- Every operation of the binary32 product of `m` and the vector `v` has a
result that is a finite binary32 number. -/
def Binary32.exactMV (m : Mat4) (v : Fin 4 → ℚ) : Prop :=
  ∀ i : Fin 4,
    Binary32.isFloat (m i 0 * v 0) ∧ Binary32.isFloat (m i 1 * v 1) ∧
    Binary32.isFloat (m i 2 * v 2) ∧ Binary32.isFloat (m i 3 * v 3) ∧
    Binary32.isFloat (m i 0 * v 0 + m i 1 * v 1) ∧
    Binary32.isFloat (m i 2 * v 2 + m i 3 * v 3) ∧
    Binary32.isFloat (m i 0 * v 0 + m i 1 * v 1 + (m i 2 * v 2 + m i 3 * v 3))

/-- Every operation of `vertexShader` at `vertex` and `u` has a result that is
a finite binary32 number: the three matrix products, the product with the
vector and the three divisions; none of them rounds, overflows or
underflows. -/
def Binary32.exactTransform (vertex : Vertex) (u : Uniform) : Prop :=
  Binary32.exactMM u.viewport u.projection ∧
  Binary32.exactMM (u.viewport * u.projection) u.view ∧
  Binary32.exactMM (u.viewport * u.projection * u.view) u.model ∧
  Binary32.exactMV (u.viewport * u.projection * u.view * u.model)
    ![vertex.position.x, vertex.position.y, vertex.position.z, 1] ∧
  ∀ i : Fin 4,
    Binary32.isFloat
      ((u.viewport * u.projection * u.view * u.model).mulVec
          ![vertex.position.x, vertex.position.y, vertex.position.z, 1] i /
        (u.viewport * u.projection * u.view * u.model).mulVec
          ![vertex.position.x, vertex.position.y, vertex.position.z, 1] 3)

/-! ## Depth / merge stage: lemmas -/

theorem fidx_eq_of_le_of_lt (q : ℚ) (n : ℕ) (h1 : (n : ℚ) ≤ q) (h2 : q < n + 1) :
    fidx q = n := by
  have h0 : (0 : ℚ) ≤ q := le_trans (Nat.cast_nonneg n) h1
  have hf : ⌊q⌋ = (n : ℤ) := by
    rw [Int.floor_eq_iff]
    exact ⟨by exact_mod_cast h1, by exact_mod_cast h2⟩
  unfold fidx ftrunc
  rw [if_pos h0, hf]
  rfl

theorem point_zbuffer (s : State) (f : Fragment) (i j : ℕ) :
    (point s f).zbuffer j i =
      if reaches i j f ∧ f.position.z < s.zbuffer j i then f.position.z else s.zbuffer j i := by
  unfold point reaches inBounds
  by_cases hg : f.position.y < WINDOW_HEIGHT ∧ f.position.x < WINDOW_WIDTH ∧ f.position.y > 0 ∧
      f.position.x > 0 ∧ f.position.z < s.zbuffer (fidx f.position.y) (fidx f.position.x)
  · rw [if_pos hg]
    obtain ⟨h1, h2, h3, h4, h5⟩ := hg
    by_cases hp : j = fidx f.position.y ∧ i = fidx f.position.x
    · obtain ⟨rfl, rfl⟩ := hp
      simp [h1, h2, h3, h4, h5]
    · have hp2 : ¬ (fidx f.position.x = i ∧ fidx f.position.y = j) := fun h => hp ⟨h.2.symm, h.1.symm⟩
      simp only [if_neg hp]
      rw [if_neg]
      intro h
      exact hp2 h.1.2
  · rw [if_neg hg]
    by_cases hc : ((f.position.y < WINDOW_HEIGHT ∧ f.position.x < WINDOW_WIDTH ∧ f.position.y > 0 ∧
      f.position.x > 0) ∧ fidx f.position.x = i ∧ fidx f.position.y = j) ∧
        f.position.z < s.zbuffer j i
    · exfalso
      obtain ⟨⟨⟨h1, h2, h3, h4⟩, rfl, rfl⟩, h5⟩ := hc
      exact hg ⟨h1, h2, h3, h4, h5⟩
    · rw [if_neg hc]

theorem point_target (s : State) (f : Fragment) (i j : ℕ) :
    (point s f).target i j =
      if reaches i j f ∧ f.position.z < s.zbuffer j i then f.color else s.target i j := by
  unfold point reaches inBounds
  by_cases hg : f.position.y < WINDOW_HEIGHT ∧ f.position.x < WINDOW_WIDTH ∧ f.position.y > 0 ∧
      f.position.x > 0 ∧ f.position.z < s.zbuffer (fidx f.position.y) (fidx f.position.x)
  · rw [if_pos hg]
    obtain ⟨h1, h2, h3, h4, h5⟩ := hg
    by_cases hp : i = fidx f.position.x ∧ j = fidx f.position.y
    · obtain ⟨rfl, rfl⟩ := hp
      simp [h1, h2, h3, h4, h5]
    · have hp2 : ¬ (fidx f.position.x = i ∧ fidx f.position.y = j) := fun h => hp ⟨h.1.symm, h.2.symm⟩
      simp only [if_neg hp]
      rw [if_neg]
      intro h
      exact hp2 h.1.2
  · rw [if_neg hg]
    by_cases hc : ((f.position.y < WINDOW_HEIGHT ∧ f.position.x < WINDOW_WIDTH ∧ f.position.y > 0 ∧
      f.position.x > 0) ∧ fidx f.position.x = i ∧ fidx f.position.y = j) ∧
        f.position.z < s.zbuffer j i
    · exfalso
      obtain ⟨⟨⟨h1, h2, h3, h4⟩, rfl, rfl⟩, h5⟩ := hc
      exact hg ⟨h1, h2, h3, h4, h5⟩
    · rw [if_neg hc]

theorem State.ext_cells {s t : State} (hz : ∀ j i, s.zbuffer j i = t.zbuffer j i)
    (ht : ∀ i j, s.target i j = t.target i j) : s = t := by
  cases s; cases t
  simp only [State.mk.injEq]
  exact ⟨funext fun j => funext fun i => hz j i, funext fun i => funext fun j => ht i j⟩

theorem renderFragments_cons (s : State) (f : Fragment) (fs : List Fragment) :
    renderFragments s (f :: fs) = renderFragments (point s f) fs := rfl

theorem depthsAt_cons (i j : ℕ) (f : Fragment) (fs : List Fragment) :
    depthsAt i j (f :: fs) =
      if reaches i j f then f.position.z :: depthsAt i j fs else depthsAt i j fs := by
  unfold depthsAt
  by_cases h : reaches i j f
  · simp [List.filter_cons, h]
  · simp [List.filter_cons, h]

theorem renderFragments_zbuffer (fs : List Fragment) (s : State) (i j : ℕ) :
    (renderFragments s fs).zbuffer j i = (depthsAt i j fs).foldl min (s.zbuffer j i) := by
  induction fs generalizing s with
  | nil => rfl
  | cons f fs ih =>
    rw [renderFragments_cons, ih, point_zbuffer, depthsAt_cons]
    by_cases hr : reaches i j f
    · rw [if_pos hr, List.foldl_cons]
      by_cases hz : f.position.z < s.zbuffer j i
      · rw [if_pos ⟨hr, hz⟩, min_eq_right hz.le]
      · rw [if_neg (fun h => hz h.2), min_eq_left (not_lt.mp hz)]
    · rw [if_neg hr, if_neg (fun h => hr h.1)]

theorem foldl_min_le_init (ds : List ℚ) (m : ℚ) : ds.foldl min m ≤ m := by
  induction ds generalizing m with
  | nil => exact le_refl m
  | cons d ds ih => exact le_trans (ih (min m d)) (min_le_left m d)

theorem foldl_min_le_mem (ds : List ℚ) (m d : ℚ) (hd : d ∈ ds) : ds.foldl min m ≤ d := by
  induction ds generalizing m with
  | nil => cases hd
  | cons e ds ih =>
    rcases List.mem_cons.mp hd with rfl | hd
    · exact le_trans (foldl_min_le_init ds (min m d)) (min_le_right m d)
    · exact ih (min m e) hd

theorem foldl_min_mem_or_init (ds : List ℚ) (m : ℚ) :
    ds.foldl min m = m ∨ ds.foldl min m ∈ ds := by
  induction ds generalizing m with
  | nil => exact Or.inl rfl
  | cons e ds ih =>
    rw [List.foldl_cons]
    rcases ih (min m e) with h | h
    · rcases min_choice m e with hm | hm
      · left; rw [h, hm]
      · right; rw [h, hm]; exact List.mem_cons_self e ds
    · right; exact List.mem_cons_of_mem e h

/-- C1. Depth-buffer invariant: from a cleared buffer, after `point` has been
applied in order to any finite sequence of fragments, the cell in row `j`,
column `i` holds the minimum of 99999 and of the depths of the fragments that
pass the bounds test and whose truncated position is `(i, j)`: it is the fold
of `min` over these depths from 99999, it is at most 99999 and at most each of
these depths, and it is 99999 or one of them; a cell no such fragment falls
on holds 99999. -/
theorem depth_buffer_invariant (s0 : State) (fs : List Fragment) (i j : ℕ) :
    (renderFragments (clear s0) fs).zbuffer j i = (depthsAt i j fs).foldl min 99999 ∧
    (renderFragments (clear s0) fs).zbuffer j i ≤ 99999 ∧
    (∀ f ∈ fs, reaches i j f → (renderFragments (clear s0) fs).zbuffer j i ≤ f.position.z) ∧
    ((renderFragments (clear s0) fs).zbuffer j i = 99999 ∨
      ∃ f ∈ fs, reaches i j f ∧ (renderFragments (clear s0) fs).zbuffer j i = f.position.z) ∧
    ((∀ f ∈ fs, ¬ reaches i j f) → (renderFragments (clear s0) fs).zbuffer j i = 99999) := by
  have key : (renderFragments (clear s0) fs).zbuffer j i = (depthsAt i j fs).foldl min 99999 :=
    renderFragments_zbuffer fs (clear s0) i j
  have hmem : ∀ d, d ∈ depthsAt i j fs ↔ ∃ f ∈ fs, reaches i j f ∧ f.position.z = d := by
    intro d
    simp [depthsAt, List.mem_map, List.mem_filter, and_assoc]
  refine ⟨key, ?_, ?_, ?_, ?_⟩
  · rw [key]; exact foldl_min_le_init _ _
  · intro f hf hr
    rw [key]
    exact foldl_min_le_mem _ _ _ ((hmem _).mpr ⟨f, hf, hr, rfl⟩)
  · rw [key]
    rcases foldl_min_mem_or_init (depthsAt i j fs) 99999 with h | h
    · exact Or.inl h
    · obtain ⟨f, hf, hr, hz⟩ := (hmem _).mp h
      exact Or.inr ⟨f, hf, hr, hz.symm⟩
  · intro hno
    rw [key]
    have : depthsAt i j fs = [] := by
      rw [List.eq_nil_iff_forall_not_mem]
      intro d hd
      obtain ⟨f, hf, hr, _⟩ := (hmem d).mp hd
      exact hno f hf hr
    rw [this]; rfl

/-- What `renderFragments` leaves at one pixel, from any state: either no
fragment of the sequence is accepted there and the pixel is untouched, or the
pixel holds the colour and depth of the first fragment of least depth. -/
theorem renderFragments_pixel (fs : List Fragment) (s : State) (i j : ℕ) :
    ((∀ f ∈ fs, reaches i j f → s.zbuffer j i ≤ f.position.z) ∧
      (renderFragments s fs).target i j = s.target i j ∧
      (renderFragments s fs).zbuffer j i = s.zbuffer j i) ∨
    (∃ pre g post, fs = pre ++ g :: post ∧ reaches i j g ∧ g.position.z < s.zbuffer j i ∧
      (∀ h ∈ pre, reaches i j h → g.position.z < h.position.z) ∧
      (∀ h ∈ post, reaches i j h → g.position.z ≤ h.position.z) ∧
      (renderFragments s fs).target i j = g.color ∧
      (renderFragments s fs).zbuffer j i = g.position.z) := by
  induction fs generalizing s with
  | nil =>
    left
    exact ⟨fun f hf => absurd hf (List.not_mem_nil f), rfl, rfl⟩
  | cons f fs ih =>
    rw [renderFragments_cons]
    have hz := point_zbuffer s f i j
    have ht := point_target s f i j
    by_cases hacc : reaches i j f ∧ f.position.z < s.zbuffer j i
    · rw [if_pos hacc] at hz ht
      rcases ih (point s f) with ⟨hall, htar, hzb⟩ | ⟨pre, g, post, hfs, hg, hlt, hpre, hpost, htar, hzb⟩
      · right
        refine ⟨[], f, fs, rfl, hacc.1, hacc.2, ?_, ?_, ?_, ?_⟩
        · intro h hh; exact absurd hh (List.not_mem_nil h)
        · intro h hh hr
          have := hall h hh hr
          rwa [hz] at this
        · rw [htar, ht]
        · rw [hzb, hz]
      · right
        rw [hz] at hlt
        refine ⟨f :: pre, g, post, ?_, hg, lt_trans hlt hacc.2, ?_, hpost, htar, hzb⟩
        · rw [hfs]; rfl
        · intro h hh hr
          rcases List.mem_cons.mp hh with rfl | hh
          · exact hlt
          · exact hpre h hh hr
    · rw [if_neg hacc] at hz ht
      have hf : reaches i j f → s.zbuffer j i ≤ f.position.z := fun hr =>
        not_lt.mp (fun hlt => hacc ⟨hr, hlt⟩)
      rcases ih (point s f) with ⟨hall, htar, hzb⟩ | ⟨pre, g, post, hfs, hg, hlt, hpre, hpost, htar, hzb⟩
      · left
        refine ⟨?_, ?_, ?_⟩
        · intro h hh hr
          rcases List.mem_cons.mp hh with rfl | hh
          · exact hf hr
          · have := hall h hh hr
            rwa [hz] at this
        · rw [htar, ht]
        · rw [hzb, hz]
      · right
        rw [hz] at hlt
        refine ⟨f :: pre, g, post, ?_, hg, hlt, ?_, hpost, htar, hzb⟩
        · rw [hfs]; rfl
        · intro h hh hr
          rcases List.mem_cons.mp hh with rfl | hh
          · exact lt_of_lt_of_le hlt (hf hr)
          · exact hpre h hh hr

/-- C2. Nearest-surface colour: from a cleared buffer, after `point` has been
applied in order to a sequence of fragments, a pixel `(i, j)` that accepted a
fragment (one reaches it with a depth below 99999) shows the colour of a
fragment `g` of the sequence that reaches it, whose depth is strictly less
than that of every earlier fragment reaching the pixel and at most that of
every later one: the nearest fragment, and among equally near ones the first
submitted.  The depth cell holds the depth of `g`. -/
theorem nearest_surface_colour (s0 : State) (fs : List Fragment) (i j : ℕ)
    (hacc : ∃ f ∈ fs, reaches i j f ∧ f.position.z < 99999) :
    ∃ pre g post, fs = pre ++ g :: post ∧ reaches i j g ∧
      (∀ h ∈ pre, reaches i j h → g.position.z < h.position.z) ∧
      (∀ h ∈ post, reaches i j h → g.position.z ≤ h.position.z) ∧
      (renderFragments (clear s0) fs).target i j = g.color ∧
      (renderFragments (clear s0) fs).zbuffer j i = g.position.z := by
  rcases renderFragments_pixel fs (clear s0) i j with
    ⟨hall, _, _⟩ | ⟨pre, g, post, hfs, hg, _, hpre, hpost, htar, hzb⟩
  · obtain ⟨f, hf, hr, hlt⟩ := hacc
    have h1 : (clear s0).zbuffer j i ≤ f.position.z := hall f hf hr
    have h2 : (clear s0).zbuffer j i = 99999 := rfl
    rw [h2] at h1
    exact absurd hlt (not_lt.mpr h1)
  · exact ⟨pre, g, post, hfs, hg, hpre, hpost, htar, hzb⟩

/-- C3. Depth/merge test-and-set: `point` changes the buffers exactly when
`0 < f.x < 840`, `0 < f.y < 680` and `f.z` is strictly below the depth cell at
the pixel of `f`; it then sets that cell to `f.z` and that pixel of the colour
target to `f.color` and leaves every other cell and pixel as it was; otherwise
both buffers are unchanged.  A fragment with `x = 0` or `y = 0` is never
accepted. -/
theorem point_test_and_set (s : State) (f : Fragment) :
    (point s f ≠ s ↔
      (0 < f.position.x ∧ f.position.x < 840 ∧ 0 < f.position.y ∧ f.position.y < 680 ∧
        f.position.z < s.zbuffer (fidx f.position.y) (fidx f.position.x))) ∧
    ((0 < f.position.x ∧ f.position.x < 840 ∧ 0 < f.position.y ∧ f.position.y < 680 ∧
        f.position.z < s.zbuffer (fidx f.position.y) (fidx f.position.x)) →
      (∀ j i, (point s f).zbuffer j i =
        if j = fidx f.position.y ∧ i = fidx f.position.x then f.position.z else s.zbuffer j i) ∧
      (∀ x y, (point s f).target x y =
        if x = fidx f.position.x ∧ y = fidx f.position.y then f.color else s.target x y)) ∧
    (¬ (0 < f.position.x ∧ f.position.x < 840 ∧ 0 < f.position.y ∧ f.position.y < 680 ∧
        f.position.z < s.zbuffer (fidx f.position.y) (fidx f.position.x)) → point s f = s) ∧
    (f.position.x = 0 ∨ f.position.y = 0 → point s f = s) := by
  have hguard : (f.position.y < WINDOW_HEIGHT ∧ f.position.x < WINDOW_WIDTH ∧ f.position.y > 0 ∧
      f.position.x > 0 ∧ f.position.z < s.zbuffer (fidx f.position.y) (fidx f.position.x)) ↔
      (0 < f.position.x ∧ f.position.x < 840 ∧ 0 < f.position.y ∧ f.position.y < 680 ∧
        f.position.z < s.zbuffer (fidx f.position.y) (fidx f.position.x)) := by
    simp only [WINDOW_HEIGHT, WINDOW_WIDTH, Nat.cast_ofNat, gt_iff_lt]
    tauto
  have hno : ¬ (0 < f.position.x ∧ f.position.x < 840 ∧ 0 < f.position.y ∧ f.position.y < 680 ∧
        f.position.z < s.zbuffer (fidx f.position.y) (fidx f.position.x)) → point s f = s := by
    intro h
    unfold point
    rw [if_neg (fun hg => h (hguard.mp hg))]
  have hyes : (0 < f.position.x ∧ f.position.x < 840 ∧ 0 < f.position.y ∧ f.position.y < 680 ∧
        f.position.z < s.zbuffer (fidx f.position.y) (fidx f.position.x)) →
      (∀ j i, (point s f).zbuffer j i =
        if j = fidx f.position.y ∧ i = fidx f.position.x then f.position.z else s.zbuffer j i) ∧
      (∀ x y, (point s f).target x y =
        if x = fidx f.position.x ∧ y = fidx f.position.y then f.color else s.target x y) := by
    intro h
    unfold point
    rw [if_pos (hguard.mpr h)]
    exact ⟨fun _ _ => rfl, fun _ _ => rfl⟩
  refine ⟨⟨?_, ?_⟩, hyes, hno, ?_⟩
  · intro hne
    by_contra hc
    exact hne (hno hc)
  · intro h heq
    have h1 := (hyes h).1 (fidx f.position.y) (fidx f.position.x)
    rw [if_pos ⟨rfl, rfl⟩, heq] at h1
    exact absurd h.2.2.2.2 (by rw [h1]; exact lt_irrefl _)
  · intro h0
    apply hno
    rintro ⟨hx, _, hy, _, _⟩
    rcases h0 with h0 | h0
    · rw [h0] at hx; exact lt_irrefl _ hx
    · rw [h0] at hy; exact lt_irrefl _ hy

/-- C4. Order-independent nearest-wins: for two fragments that pass the bounds
test, fall on the same pixel and have different depths, `point` applied to the
first and then to the second leaves the same depth buffer and colour target as
the opposite order, from every state; from a cleared buffer, with depths 5
and 3, the pixel ends with depth 3 and the colour of the second fragment in
both orders. -/
theorem point_order_independent (s : State) (F1 F2 : Fragment)
    (hb1 : inBounds F1) (hb2 : inBounds F2)
    (hx : fidx F1.position.x = fidx F2.position.x)
    (hy : fidx F1.position.y = fidx F2.position.y)
    (hz : F1.position.z ≠ F2.position.z) :
    point (point s F1) F2 = point (point s F2) F1 ∧
    (F1.position.z = 5 → F2.position.z = 3 →
      (point (point (clear s) F1) F2).zbuffer (fidx F1.position.y) (fidx F1.position.x) = 3 ∧
      (point (point (clear s) F1) F2).target (fidx F1.position.x) (fidx F1.position.y) = F2.color ∧
      (point (point (clear s) F2) F1).zbuffer (fidx F1.position.y) (fidx F1.position.x) = 3 ∧
      (point (point (clear s) F2) F1).target (fidx F1.position.x) (fidx F1.position.y) =
        F2.color) := by
  constructor
  · apply State.ext_cells
    · intro j i
      simp only [point_zbuffer]
      rcases lt_or_gt_of_ne hz with h | h <;>
        by_cases r1 : reaches i j F1 <;> by_cases r2 : reaches i j F2 <;>
        simp only [r1, r2, true_and, false_and, if_false] <;>
        split_ifs <;> first | rfl | (exfalso; linarith)
    · intro i j
      simp only [point_target, point_zbuffer]
      rcases lt_or_gt_of_ne hz with h | h <;>
        by_cases r1 : reaches i j F1 <;> by_cases r2 : reaches i j F2 <;>
        simp only [r1, r2, true_and, false_and, if_false] <;>
        split_ifs <;> first | rfl | (exfalso; linarith)
  · intro h5 h3
    have r1 : reaches (fidx F1.position.x) (fidx F1.position.y) F1 := ⟨hb1, rfl, rfl⟩
    have r2 : reaches (fidx F1.position.x) (fidx F1.position.y) F2 := ⟨hb2, hx.symm, hy.symm⟩
    have hc : ∀ j i, (clear s).zbuffer j i = 99999 := fun _ _ => rfl
    simp only [point_target, point_zbuffer, r1, r2, hc, h5, h3, true_and]
    norm_num

/-- Witness of C2 at three fragments on pixel `(10, 20)`: depths 5, 3, 3. -/
theorem nearest_surface_colour_witness :
    ∃ pre g post,
      [(⟨⟨21 / 2, 41 / 2, 5⟩, ⟨255, 0, 0, 255⟩⟩ : Fragment),
        ⟨⟨51 / 5, 81 / 4, 3⟩, ⟨0, 255, 0, 255⟩⟩,
        ⟨⟨10, 20, 3⟩, ⟨0, 0, 255, 255⟩⟩] = pre ++ g :: post ∧
      reaches 10 20 g ∧
      (∀ h ∈ pre, reaches 10 20 h → g.position.z < h.position.z) ∧
      (∀ h ∈ post, reaches 10 20 h → g.position.z ≤ h.position.z) ∧
      (renderFragments (clear ⟨fun _ _ => 0, fun _ _ => ⟨0, 0, 0, 0⟩⟩)
        [(⟨⟨21 / 2, 41 / 2, 5⟩, ⟨255, 0, 0, 255⟩⟩ : Fragment),
          ⟨⟨51 / 5, 81 / 4, 3⟩, ⟨0, 255, 0, 255⟩⟩,
          ⟨⟨10, 20, 3⟩, ⟨0, 0, 255, 255⟩⟩]).target 10 20 = g.color ∧
      (renderFragments (clear ⟨fun _ _ => 0, fun _ _ => ⟨0, 0, 0, 0⟩⟩)
        [(⟨⟨21 / 2, 41 / 2, 5⟩, ⟨255, 0, 0, 255⟩⟩ : Fragment),
          ⟨⟨51 / 5, 81 / 4, 3⟩, ⟨0, 255, 0, 255⟩⟩,
          ⟨⟨10, 20, 3⟩, ⟨0, 0, 255, 255⟩⟩]).zbuffer 20 10 = g.position.z :=
  nearest_surface_colour ⟨fun _ _ => 0, fun _ _ => ⟨0, 0, 0, 0⟩⟩ _ 10 20
    ⟨⟨⟨21 / 2, 41 / 2, 5⟩, ⟨255, 0, 0, 255⟩⟩, List.mem_cons_self _ _,
      ⟨⟨by norm_num [WINDOW_HEIGHT], by norm_num [WINDOW_WIDTH], by norm_num, by norm_num⟩,
        fidx_eq_of_le_of_lt (21 / 2) 10 (by norm_num) (by norm_num),
        fidx_eq_of_le_of_lt (41 / 2) 20 (by norm_num) (by norm_num)⟩,
      by norm_num⟩

/-- Witness of C4: two fragments on pixel `(10, 20)`, of depths 5 and 3; from
a cleared buffer both orders leave depth 3 and the colour of the second. -/
theorem point_order_independent_witness :
    point (point ⟨fun _ _ => 7, fun _ _ => ⟨0, 0, 0, 0⟩⟩
        ⟨⟨21 / 2, 41 / 2, 5⟩, ⟨255, 0, 0, 255⟩⟩) ⟨⟨51 / 5, 81 / 4, 3⟩, ⟨0, 255, 0, 255⟩⟩ =
      point (point ⟨fun _ _ => 7, fun _ _ => ⟨0, 0, 0, 0⟩⟩
        ⟨⟨51 / 5, 81 / 4, 3⟩, ⟨0, 255, 0, 255⟩⟩) ⟨⟨21 / 2, 41 / 2, 5⟩, ⟨255, 0, 0, 255⟩⟩ ∧
    (point (point (clear ⟨fun _ _ => 7, fun _ _ => ⟨0, 0, 0, 0⟩⟩)
        ⟨⟨21 / 2, 41 / 2, 5⟩, ⟨255, 0, 0, 255⟩⟩)
        ⟨⟨51 / 5, 81 / 4, 3⟩, ⟨0, 255, 0, 255⟩⟩).zbuffer 20 10 = 3 ∧
    (point (point (clear ⟨fun _ _ => 7, fun _ _ => ⟨0, 0, 0, 0⟩⟩)
        ⟨⟨21 / 2, 41 / 2, 5⟩, ⟨255, 0, 0, 255⟩⟩)
        ⟨⟨51 / 5, 81 / 4, 3⟩, ⟨0, 255, 0, 255⟩⟩).target 10 20 = ⟨0, 255, 0, 255⟩ ∧
    (point (point (clear ⟨fun _ _ => 7, fun _ _ => ⟨0, 0, 0, 0⟩⟩)
        ⟨⟨51 / 5, 81 / 4, 3⟩, ⟨0, 255, 0, 255⟩⟩)
        ⟨⟨21 / 2, 41 / 2, 5⟩, ⟨255, 0, 0, 255⟩⟩).zbuffer 20 10 = 3 ∧
    (point (point (clear ⟨fun _ _ => 7, fun _ _ => ⟨0, 0, 0, 0⟩⟩)
        ⟨⟨51 / 5, 81 / 4, 3⟩, ⟨0, 255, 0, 255⟩⟩)
        ⟨⟨21 / 2, 41 / 2, 5⟩, ⟨255, 0, 0, 255⟩⟩).target 10 20 = ⟨0, 255, 0, 255⟩ := by
  have hx1 : fidx (21 / 2) = 10 := fidx_eq_of_le_of_lt (21 / 2) 10 (by norm_num) (by norm_num)
  have hx2 : fidx (51 / 5) = 10 := fidx_eq_of_le_of_lt (51 / 5) 10 (by norm_num) (by norm_num)
  have hy1 : fidx (41 / 2) = 20 := fidx_eq_of_le_of_lt (41 / 2) 20 (by norm_num) (by norm_num)
  have hy2 : fidx (81 / 4) = 20 := fidx_eq_of_le_of_lt (81 / 4) 20 (by norm_num) (by norm_num)
  have key := point_order_independent ⟨fun _ _ => 7, fun _ _ => ⟨0, 0, 0, 0⟩⟩
    ⟨⟨21 / 2, 41 / 2, 5⟩, ⟨255, 0, 0, 255⟩⟩ ⟨⟨51 / 5, 81 / 4, 3⟩, ⟨0, 255, 0, 255⟩⟩
    ⟨by norm_num [WINDOW_HEIGHT], by norm_num [WINDOW_WIDTH], by norm_num, by norm_num⟩
    ⟨by norm_num [WINDOW_HEIGHT], by norm_num [WINDOW_WIDTH], by norm_num, by norm_num⟩
    (by rw [hx1, hx2]) (by rw [hy1, hy2]) (by norm_num)
  have k2 := key.2 rfl rfl
  dsimp only at k2
  rw [hx1, hy1] at k2
  exact ⟨key.1, k2⟩

/-! ## Rasterizer: lemmas -/

theorem mem_loopRange (lo hi x : ℤ) : x ∈ loopRange lo hi ↔ lo ≤ x ∧ x ≤ hi := by
  unfold loopRange
  rw [List.mem_map]
  constructor
  · rintro ⟨k, hk, rfl⟩
    rw [List.mem_range] at hk
    omega
  · rintro ⟨h1, h2⟩
    refine ⟨(x - lo).toNat, ?_, ?_⟩
    · rw [List.mem_range]; omega
    · omega

theorem barycentricCoordinates_of_ne (P A B C : Vec3) (hd : denominator A B C ≠ 0) :
    barycentricCoordinates P A B C =
      ⟨some (((B.y - C.y) * (P.x - C.x) + (C.x - B.x) * (P.y - C.y)) / denominator A B C),
        some (((C.y - A.y) * (P.x - C.x) + (A.x - C.x) * (P.y - C.y)) / denominator A B C),
        some (1 - ((B.y - C.y) * (P.x - C.x) + (C.x - B.x) * (P.y - C.y)) / denominator A B C -
          ((C.y - A.y) * (P.x - C.x) + (A.x - C.x) * (P.y - C.y)) / denominator A B C)⟩ := by
  unfold denominator at hd
  simp only [barycentricCoordinates, fdiv, denominator, if_neg hd, fsub]

theorem barycentricCoordinates_of_eq (P A B C : Vec3) (hd : denominator A B C = 0) :
    barycentricCoordinates P A B C = ⟨none, none, none⟩ := by
  unfold denominator at hd
  simp only [barycentricCoordinates, fdiv, if_pos hd, fsub]

/-- The coordinates computed at a point that is a combination of the vertices
with weights of sum 1 are these weights. -/
theorem barycentricCoordinates_combination (P A B C : Vec3) (hd : denominator A B C ≠ 0)
    (α β γ : ℚ) (hsum : α + β + γ = 1)
    (hx : P.x = α * A.x + β * B.x + γ * C.x) (hy : P.y = α * A.y + β * B.y + γ * C.y) :
    barycentricCoordinates P A B C = ⟨some α, some β, some γ⟩ := by
  have hγ : γ = 1 - α - β := by linarith
  have hw : ((B.y - C.y) * (P.x - C.x) + (C.x - B.x) * (P.y - C.y)) / denominator A B C = α := by
    rw [div_eq_iff hd, hx, hy, hγ]
    unfold denominator
    ring
  have hv : ((C.y - A.y) * (P.x - C.x) + (A.x - C.x) * (P.y - C.y)) / denominator A B C = β := by
    rw [div_eq_iff hd, hx, hy, hγ]
    unfold denominator
    ring
  rw [barycentricCoordinates_of_ne P A B C hd, hw, hv, hγ]

/-- Conversely the point is the combination of the vertices weighted by its
finite coordinates, which sum to 1. -/
theorem combination_of_barycentricCoordinates (P A B C : Vec3) (w v u : ℚ)
    (h : barycentricCoordinates P A B C = ⟨some w, some v, some u⟩) :
    denominator A B C ≠ 0 ∧ w + v + u = 1 ∧
      P.x = w * A.x + v * B.x + u * C.x ∧ P.y = w * A.y + v * B.y + u * C.y := by
  have hd : denominator A B C ≠ 0 := by
    intro h0
    rw [barycentricCoordinates_of_eq P A B C h0] at h
    simp at h
  rw [barycentricCoordinates_of_ne P A B C hd] at h
  simp only [FVec3.mk.injEq, Option.some.injEq] at h
  obtain ⟨hw, hv, hu⟩ := h
  have hw2 : (B.y - C.y) * (P.x - C.x) + (C.x - B.x) * (P.y - C.y) = w * denominator A B C := by
    rw [← hw, div_mul_cancel₀ _ hd]
  have hv2 : (C.y - A.y) * (P.x - C.x) + (A.x - C.x) * (P.y - C.y) = v * denominator A B C := by
    rw [← hv, div_mul_cancel₀ _ hd]
  have hu2 : u = 1 - w - v := by rw [← hu, hw, hv]
  refine ⟨hd, by rw [hu2]; ring, ?_, ?_⟩
  · have e : (P.x - (w * A.x + v * B.x + u * C.x)) * denominator A B C = 0 := by
      rw [hu2]
      have e1 : (P.x - (w * A.x + v * B.x + (1 - w - v) * C.x)) * denominator A B C =
          (P.x - C.x) * denominator A B C - (w * denominator A B C) * (A.x - C.x)
            - (v * denominator A B C) * (B.x - C.x) := by ring
      rw [e1, ← hw2, ← hv2]
      unfold denominator
      ring
    rcases mul_eq_zero.mp e with e | e
    · linarith
    · exact absurd e hd
  · have e : (P.y - (w * A.y + v * B.y + u * C.y)) * denominator A B C = 0 := by
      rw [hu2]
      have e1 : (P.y - (w * A.y + v * B.y + (1 - w - v) * C.y)) * denominator A B C =
          (P.y - C.y) * denominator A B C - (w * denominator A B C) * (A.y - C.y)
            - (v * denominator A B C) * (B.y - C.y) := by ring
      rw [e1, ← hw2, ← hv2]
      unfold denominator
      ring
    rcases mul_eq_zero.mp e with e | e
    · linarith
    · exact absurd e hd

theorem trianglePixel_eq_some_iff (oor : ℚ → ℕ) (normalize : Vec3 → Vec3) (a b c : Vertex)
    (x y : ℤ) (f : Fragment) :
    trianglePixel oor normalize a b c x y = some f ↔
      ∃ w v u, barycentricCoordinates ⟨x, y, 0⟩ a.position b.position c.position =
          ⟨some w, some v, some u⟩ ∧
        (0 ≤ w ∧ w ≤ 1 ∧ 0 ≤ v ∧ v ≤ 1 ∧ 0 ≤ u ∧ u ≤ 1) ∧
        f = ⟨⟨x, y, a.position.z * w + b.position.z * v + c.position.z * u⟩,
          flatColor oor normalize a b c⟩ := by
  unfold trianglePixel flatColor
  generalize barycentricCoordinates ⟨x, y, 0⟩ a.position b.position c.position = bar
  rcases bar with ⟨_ | w, _ | v, _ | u⟩ <;> simp only [FVec3.mk.injEq, false_and, and_false,
    exists_false, reduceCtorEq, iff_false, not_false_eq_true]
  simp only [Option.some.injEq]
  constructor
  · intro h
    by_cases hc : w ≤ 1 ∧ w ≥ 0 ∧ v ≤ 1 ∧ v ≥ 0 ∧ u ≤ 1 ∧ u ≥ 0
    · rw [if_pos hc] at h
      obtain ⟨h1, h2, h3, h4, h5, h6⟩ := hc
      exact ⟨w, v, u, ⟨rfl, rfl, rfl⟩, ⟨h2, h1, h4, h3, h6, h5⟩, (Option.some.inj h).symm⟩
    · rw [if_neg hc] at h
      cases h
  · rintro ⟨w2, v2, u2, ⟨rfl, rfl, rfl⟩, ⟨h2, h1, h4, h3, h6, h5⟩, rfl⟩
    rw [if_pos ⟨h1, h2, h3, h4, h5, h6⟩]

theorem mem_triangle (oor : ℚ → ℕ) (normalize : Vec3 → Vec3) (a b c : Vertex) (f : Fragment) :
    f ∈ triangle oor normalize a b c ↔
      ∃ x y : ℤ, boxMinX a.position b.position c.position ≤ x ∧
        x ≤ boxMaxX a.position b.position c.position ∧
        boxMinY a.position b.position c.position ≤ y ∧
        y ≤ boxMaxY a.position b.position c.position ∧
        trianglePixel oor normalize a b c x y = some f := by
  unfold triangle
  simp only [List.mem_flatMap, List.mem_filterMap, mem_loopRange]
  constructor
  · rintro ⟨y, ⟨hy1, hy2⟩, x, ⟨hx1, hx2⟩, h⟩
    exact ⟨x, y, hx1, hx2, hy1, hy2, h⟩
  · rintro ⟨x, y, hx1, hx2, hy1, hy2, h⟩
    exact ⟨y, ⟨hy1, hy2⟩, x, ⟨hx1, hx2⟩, h⟩

theorem combination_bounds (w v u p q r : ℚ) (hw : 0 ≤ w) (hv : 0 ≤ v) (hu : 0 ≤ u)
    (hsum : w + v + u = 1) :
    min (min p q) r ≤ w * p + v * q + u * r ∧ w * p + v * q + u * r ≤ max (max p q) r := by
  have m1 : min (min p q) r ≤ p := le_trans (min_le_left _ _) (min_le_left _ _)
  have m2 : min (min p q) r ≤ q := le_trans (min_le_left _ _) (min_le_right _ _)
  have m3 : min (min p q) r ≤ r := min_le_right _ _
  have M1 : p ≤ max (max p q) r := le_trans (le_max_left _ _) (le_max_left _ _)
  have M2 : q ≤ max (max p q) r := le_trans (le_max_right _ _) (le_max_left _ _)
  have M3 : r ≤ max (max p q) r := le_max_right _ _
  constructor
  · have e : min (min p q) r = w * min (min p q) r + v * min (min p q) r + u * min (min p q) r := by
      rw [← add_mul, ← add_mul, hsum, one_mul]
    rw [e]
    exact add_le_add (add_le_add (mul_le_mul_of_nonneg_left m1 hw)
      (mul_le_mul_of_nonneg_left m2 hv)) (mul_le_mul_of_nonneg_left m3 hu)
  · have e : max (max p q) r = w * max (max p q) r + v * max (max p q) r + u * max (max p q) r := by
      rw [← add_mul, ← add_mul, hsum, one_mul]
    rw [e]
    exact add_le_add (add_le_add (mul_le_mul_of_nonneg_left M1 hw)
      (mul_le_mul_of_nonneg_left M2 hv)) (mul_le_mul_of_nonneg_left M3 hu)

/-- A pixel whose three coordinates are finite and in `[0, 1]` lies in the box
scanned by `triangle`. -/
theorem in_box_of_barycentric (A B C : Vec3) (x y : ℤ) (w v u : ℚ)
    (hbar : barycentricCoordinates ⟨x, y, 0⟩ A B C = ⟨some w, some v, some u⟩)
    (hw : 0 ≤ w) (hv : 0 ≤ v) (hu : 0 ≤ u) :
    boxMinX A B C ≤ x ∧ x ≤ boxMaxX A B C ∧ boxMinY A B C ≤ y ∧ y ≤ boxMaxY A B C := by
  obtain ⟨_, hsum, hx, hy⟩ := combination_of_barycentricCoordinates _ A B C w v u hbar
  have bx := combination_bounds w v u A.x B.x C.x hw hv hu hsum
  have bY := combination_bounds w v u A.y B.y C.y hw hv hu hsum
  simp only at hx hy
  rw [← hx] at bx
  rw [← hy] at bY
  unfold boxMinX boxMaxX boxMinY boxMaxY
  refine ⟨?_, ?_, ?_, ?_⟩
  · exact Int.cast_le.mp (le_trans (Int.floor_le _) bx.1)
  · exact Int.cast_le.mp (le_trans bx.2 (Int.le_ceil _))
  · exact Int.cast_le.mp (le_trans (Int.floor_le _) bY.1)
  · exact Int.cast_le.mp (le_trans bY.2 (Int.le_ceil _))

/-- A pixel whose three coordinates are finite and in `[0, 1]` gets a fragment. -/
theorem fragment_of_barycentric (oor : ℚ → ℕ) (normalize : Vec3 → Vec3) (a b c : Vertex)
    (x y : ℤ) (w v u : ℚ)
    (hbar : barycentricCoordinates ⟨x, y, 0⟩ a.position b.position c.position =
      ⟨some w, some v, some u⟩)
    (h01 : 0 ≤ w ∧ w ≤ 1 ∧ 0 ≤ v ∧ v ≤ 1 ∧ 0 ≤ u ∧ u ≤ 1) :
    (⟨⟨x, y, a.position.z * w + b.position.z * v + c.position.z * u⟩,
      flatColor oor normalize a b c⟩ : Fragment) ∈ triangle oor normalize a b c := by
  rw [mem_triangle]
  obtain ⟨h1, h2, h3, h4⟩ :=
    in_box_of_barycentric a.position b.position c.position x y w v u hbar h01.1 h01.2.2.1
      h01.2.2.2.2.1
  exact ⟨x, y, h1, h2, h3, h4,
    (trianglePixel_eq_some_iff oor normalize a b c x y _).mpr ⟨w, v, u, hbar, h01, rfl⟩⟩

theorem castUint8_le (oor : ℚ → ℕ) (q : ℚ) : castUint8 oor q ≤ 255 := by
  unfold castUint8
  split_ifs with h
  · omega
  · have := Nat.mod_lt (oor q) (show 0 < 256 by norm_num)
    omega

/-- The `std::clamp` of the `float` constructor comes after the conversion to
`Uint8` and changes nothing. -/
theorem clamp_castUint8 (oor : ℚ → ℕ) (q : ℚ) : clamp (castUint8 oor q) 0 255 = castUint8 oor q := by
  unfold clamp
  rw [if_neg (Nat.not_lt_zero _), if_neg (not_lt.mpr (castUint8_le oor q))]

theorem castUint8_of_ge (oor : ℚ → ℕ) (q : ℚ) (h : 256 ≤ q) : castUint8 oor q = oor q % 256 := by
  unfold castUint8
  rw [if_neg]
  rintro ⟨_, h2⟩
  have h0 : (0 : ℚ) ≤ q := by linarith
  unfold ftrunc at h2
  rw [if_pos h0] at h2
  have h3 : (256 : ℤ) ≤ ⌊q⌋ := Int.le_floor.mpr (by exact_mod_cast h)
  omega

theorem castUint8_of_floor (oor : ℚ → ℕ) (q : ℚ) (n : ℕ) (hn : n ≤ 255) (h1 : (n : ℚ) ≤ q)
    (h2 : q < n + 1) : castUint8 oor q = n := by
  have h0 : (0 : ℚ) ≤ q := le_trans (Nat.cast_nonneg n) h1
  have hf : ftrunc q = (n : ℤ) := by
    unfold ftrunc
    rw [if_pos h0, Int.floor_eq_iff]
    exact ⟨by exact_mod_cast h1, by exact_mod_cast h2⟩
  unfold castUint8
  rw [hf, if_pos ⟨by omega, by omega⟩]
  rfl

/-- Every fragment of one triangle carries the colour `flatColor`. -/
theorem triangle_color (oor : ℚ → ℕ) (normalize : Vec3 → Vec3) (a b c : Vertex) (f : Fragment)
    (hf : f ∈ triangle oor normalize a b c) : f.color = flatColor oor normalize a b c := by
  obtain ⟨x, y, _, _, _, _, h5⟩ := (mem_triangle oor normalize a b c f).mp hf
  obtain ⟨w, v, u, _, _, rfl⟩ := (trianglePixel_eq_some_iff oor normalize a b c x y f).mp h5
  rfl

/-- C10 (what the code does at a triangle facing the viewer). For the triangle
`(0,0,0) (4,0,0) (0,4,0)`, whose normal is `(0, 0, 1)`, and a light whose `z`
is at least `1/2` (the program's is about `0.696`), `intensity * 255` is at
least 255, yet the fragments are not white by clamping: `triangle` returns
fragments, and each channel `r`, `g`, `b` of each of them is the conversion to
`Uint8` of `intensity * 255 * 255`, a value of at least 256 that does not fit,
so the channel is what the out-of-range conversion yields. -/
theorem lighting_colour_unclamped (oor : ℚ → ℕ) (normalize : Vec3 → Vec3)
    (hN : normalize ⟨0, 0, 16⟩ = ⟨0, 0, 1⟩) (hL : 1 / 2 ≤ (light normalize).z) :
    triangle oor normalize ⟨⟨0, 0, 0⟩, ⟨255, 255, 255, 255⟩⟩
        ⟨⟨4, 0, 0⟩, ⟨255, 255, 255, 255⟩⟩ ⟨⟨0, 4, 0⟩, ⟨255, 255, 255, 255⟩⟩ ≠ [] ∧
    255 ≤ (light normalize).z * 10 * 255 ∧
    ∀ f ∈ triangle oor normalize ⟨⟨0, 0, 0⟩, ⟨255, 255, 255, 255⟩⟩
        ⟨⟨4, 0, 0⟩, ⟨255, 255, 255, 255⟩⟩ ⟨⟨0, 4, 0⟩, ⟨255, 255, 255, 255⟩⟩,
      f.color.r = oor ((light normalize).z * 10 * 255 * 255) % 256 ∧
      f.color.g = oor ((light normalize).z * 10 * 255 * 255) % 256 ∧
      f.color.b = oor ((light normalize).z * 10 * 255 * 255) % 256 ∧
      f.color.a = 255 := by
  have hcross : cross ((⟨4, 0, 0⟩ : Vec3).sub ⟨0, 0, 0⟩) ((⟨0, 4, 0⟩ : Vec3).sub ⟨0, 0, 0⟩) =
      ⟨0, 0, 16⟩ := by
    simp only [cross, Vec3.sub, Vec3.mk.injEq]
    norm_num
  have hI : dot (normalize (cross ((⟨4, 0, 0⟩ : Vec3).sub ⟨0, 0, 0⟩)
      ((⟨0, 4, 0⟩ : Vec3).sub ⟨0, 0, 0⟩))) (light normalize) = (light normalize).z := by
    rw [hcross, hN]
    simp only [dot]
    ring
  refine ⟨?_, by linarith, ?_⟩
  · intro hnil
    have hmem := fragment_of_barycentric oor normalize ⟨⟨0, 0, 0⟩, ⟨255, 255, 255, 255⟩⟩
      ⟨⟨4, 0, 0⟩, ⟨255, 255, 255, 255⟩⟩ ⟨⟨0, 4, 0⟩, ⟨255, 255, 255, 255⟩⟩ 1 1
      (1 / 2) (1 / 4) (1 / 4)
      (barycentricCoordinates_combination _ _ _ _ (by norm_num [denominator]) _ _ _
        (by norm_num) (by norm_num) (by norm_num))
      (by norm_num)
    rw [hnil] at hmem
    exact List.not_mem_nil _ hmem
  · intro f hf
    rw [triangle_color oor normalize _ _ _ f hf]
    simp only [flatColor, Color.ofFloats, clamp_castUint8, hI]
    have hbig : (256 : ℚ) ≤ (light normalize).z * 10 * 255 * 255 := by linarith
    refine ⟨castUint8_of_ge oor _ hbig, castUint8_of_ge oor _ hbig, castUint8_of_ge oor _ hbig, ?_⟩
    exact castUint8_of_floor oor _ 255 (le_refl _) (by norm_num) (by norm_num)

/-- Witness of the C10 evaluation: a normalisation that returns `(0, 0, 1)` on
`(0, 0, 16)` and the light `(0.174, 0.696, 0.696)`, with an out-of-range
conversion that keeps the low eight bits: the triangle has fragments,
`intensity * 255 * 255` is 452574 and the red channel of every fragment is
222, not 255. -/
theorem lighting_colour_unclamped_witness :
    triangle (fun q => (ftrunc q % 256).toNat)
        (fun n => if n = ⟨0, 0, 16⟩ then ⟨0, 0, 1⟩ else n.smul (87 / 250))
        ⟨⟨0, 0, 0⟩, ⟨255, 255, 255, 255⟩⟩
        ⟨⟨4, 0, 0⟩, ⟨255, 255, 255, 255⟩⟩ ⟨⟨0, 4, 0⟩, ⟨255, 255, 255, 255⟩⟩ ≠ [] ∧
    ∀ f ∈ triangle (fun q => (ftrunc q % 256).toNat)
        (fun n => if n = ⟨0, 0, 16⟩ then ⟨0, 0, 1⟩ else n.smul (87 / 250))
        ⟨⟨0, 0, 0⟩, ⟨255, 255, 255, 255⟩⟩
        ⟨⟨4, 0, 0⟩, ⟨255, 255, 255, 255⟩⟩ ⟨⟨0, 4, 0⟩, ⟨255, 255, 255, 255⟩⟩,
      f.color.r = 222 := by
  have hne : ¬ ((⟨1 / 2, 2, 2⟩ : Vec3) = ⟨0, 0, 16⟩) := by
    intro h
    have := congrArg Vec3.x h
    norm_num at this
  have hz : (light (fun n => if n = ⟨0, 0, 16⟩ then ⟨0, 0, 1⟩ else n.smul (87 / 250))).z
      * 10 * 255 * 255 = 452574 := by
    simp only [light, if_neg hne, Vec3.smul]
    norm_num
  have key := lighting_colour_unclamped (fun q => (ftrunc q % 256).toNat)
    (fun n => if n = ⟨0, 0, 16⟩ then ⟨0, 0, 1⟩ else n.smul (87 / 250))
    (by simp)
    (by
      simp only [light, if_neg hne, Vec3.smul]
      norm_num)
  refine ⟨key.1, ?_⟩
  intro f hf
  have h := (key.2.2 f hf).1
  rw [h, hz]
  have ht : ftrunc 452574 = 452574 := by
    unfold ftrunc
    rw [if_pos (by norm_num)]
    exact Int.floor_eq_iff.mpr ⟨by norm_num, by norm_num⟩
  show (ftrunc 452574 % 256).toNat % 256 = 222
  rw [ht]
  rfl

/-! ## Colour arithmetic: the claims -/

theorem ofInts_channel (p q : ℕ) :
    (min (max (min (255 : ℤ) ((p : ℤ) + (q : ℤ))) 0) 255).toNat = min 255 (p + q) := by
  omega

/-- C13. Saturating colour addition: every channel (`r`, `g`, `b`, `a`) of
`c1 + c2` is `min(255, c1.channel + c2.channel)`; in particular
`Color(200,0,0) + Color(100,0,0)` is `Color(255,0,0)`. -/
theorem color_add_saturates (c1 c2 : Color) :
    (c1.add c2).r = min 255 (c1.r + c2.r) ∧ (c1.add c2).g = min 255 (c1.g + c2.g) ∧
    (c1.add c2).b = min 255 (c1.b + c2.b) ∧ (c1.add c2).a = min 255 (c1.a + c2.a) ∧
    (Color.ofInts 200 0 0 255).add (Color.ofInts 100 0 0 255) = Color.ofInts 255 0 0 255 := by
  refine ⟨ofInts_channel _ _, ofInts_channel _ _, ofInts_channel _ _, ofInts_channel _ _, ?_⟩
  decide

theorem ftrunc_intCast (z : ℤ) : ftrunc (z : ℚ) = z := by
  unfold ftrunc
  split_ifs
  · exact Int.floor_intCast z
  · exact Int.ceil_intCast z

theorem castUint8_of_le (oor : ℚ → ℕ) (q : ℚ) (h : q ≤ -1) : castUint8 oor q = oor q % 256 := by
  unfold castUint8
  rw [if_neg]
  rintro ⟨h1, _⟩
  have h0 : ¬ (0 : ℚ) ≤ q := by linarith
  unfold ftrunc at h1
  rw [if_neg h0] at h1
  have h3 : ⌈q⌉ ≤ (-1 : ℤ) := Int.ceil_le.mpr (by exact_mod_cast h)
  omega

theorem ofInts_clamp_castUint8 (oor : ℚ → ℕ) (q : ℚ) :
    (min (max ((clamp (castUint8 oor q) 0 255 : ℕ) : ℤ) 0) 255).toNat = castUint8 oor q := by
  rw [clamp_castUint8]
  have := castUint8_le oor q
  omega

/-- C14 (what the code does). `Color(200,0,0) * 2`: the product 400 is
converted to `Uint8` before `std::clamp`, so the red channel is what the
out-of-range conversion of 400 yields (144 when the low eight bits are kept)
and not a saturated 255; likewise `Color(200,0,0) * (-1)` has the red channel
of the conversion of -200 (56 with the low eight bits), not 0.  A product
whose truncation is in `[0, 255]` gives that truncation. -/
theorem color_mul_unclamped (oor : ℚ → ℕ) :
    (Color.mul oor (Color.ofInts 200 0 0 255) 2).r = oor 400 % 256 ∧
    (Color.mul (fun q => (ftrunc q % 256).toNat) (Color.ofInts 200 0 0 255) 2).r = 144 ∧
    (Color.mul oor (Color.ofInts 200 0 0 255) (-1)).r = oor (-200) % 256 ∧
    (Color.mul (fun q => (ftrunc q % 256).toNat) (Color.ofInts 200 0 0 255) (-1)).r = 56 ∧
    (∀ (c : Color) (factor : ℚ) (n : ℕ), n ≤ 255 → (n : ℚ) ≤ (c.r : ℚ) * factor →
      (c.r : ℚ) * factor < n + 1 → (Color.mul oor c factor).r = n) := by
  have h200 : (Color.ofInts 200 0 0 255).r = 200 := by decide
  have e1 : ∀ o : ℚ → ℕ, (Color.mul o (Color.ofInts 200 0 0 255) 2).r = o 400 % 256 := by
    intro o
    show (min (max ((clamp (castUint8 o (((Color.ofInts 200 0 0 255).r : ℚ) * 2)) 0 255 : ℕ) : ℤ)
      0) 255).toNat = _
    rw [ofInts_clamp_castUint8, h200]
    have e : ((200 : ℕ) : ℚ) * 2 = 400 := by norm_num
    rw [e]
    exact castUint8_of_ge o 400 (by norm_num)
  have e2 : ∀ o : ℚ → ℕ, (Color.mul o (Color.ofInts 200 0 0 255) (-1)).r = o (-200) % 256 := by
    intro o
    show (min (max ((clamp (castUint8 o (((Color.ofInts 200 0 0 255).r : ℚ) * (-1))) 0 255 : ℕ)
      : ℤ) 0) 255).toNat = _
    rw [ofInts_clamp_castUint8, h200]
    have e : ((200 : ℕ) : ℚ) * (-1) = -200 := by norm_num
    rw [e]
    exact castUint8_of_le o (-200) (by norm_num)
  have t1 : ftrunc (400 : ℚ) = 400 := by
    have := ftrunc_intCast 400
    simpa using this
  have t2 : ftrunc (-200 : ℚ) = -200 := by
    have := ftrunc_intCast (-200)
    simpa using this
  refine ⟨e1 oor, ?_, e2 oor, ?_, ?_⟩
  · rw [e1]
    show (ftrunc 400 % 256).toNat % 256 = 144
    rw [t1]; rfl
  · rw [e2]
    show (ftrunc (-200) % 256).toNat % 256 = 56
    rw [t2]; rfl
  · intro c factor n hn h1 h2
    show (min (max ((clamp (castUint8 oor ((c.r : ℚ) * factor)) 0 255 : ℕ) : ℤ) 0) 255).toNat = n
    rw [ofInts_clamp_castUint8]
    exact castUint8_of_floor oor _ n hn h1 h2

/-- C15 (what the code does). `Color(2.0f, 0.0f, 0.0f)`: `2 * 255 = 510` is
converted to `Uint8` before `std::clamp`, so the red channel is what the
out-of-range conversion of 510 yields (254 when the low eight bits are kept)
and not a clamped 255; `Color(-1.0f, 0.0f, 0.0f)` has the red channel of the
conversion of -255 (1 with the low eight bits), not 0.  A value whose scaled
truncation is in `[0, 255]` gives that truncation: 255 for a value from 1 up
to, but not including, `256 / 255`. -/
theorem float_constructor_unclamped (oor : ℚ → ℕ) :
    (Color.ofFloats oor 2 0 0 1).r = oor 510 % 256 ∧
    (Color.ofFloats (fun q => (ftrunc q % 256).toNat) 2 0 0 1).r = 254 ∧
    (Color.ofFloats oor (-1) 0 0 1).r = oor (-255) % 256 ∧
    (Color.ofFloats (fun q => (ftrunc q % 256).toNat) (-1) 0 0 1).r = 1 ∧
    (∀ (red green blue alpha : ℚ) (n : ℕ), n ≤ 255 → (n : ℚ) ≤ red * 255 →
      red * 255 < n + 1 → (Color.ofFloats oor red green blue alpha).r = n) ∧
    (∀ (red green blue alpha : ℚ), 1 ≤ red → red < 256 / 255 →
      (Color.ofFloats oor red green blue alpha).r = 255) := by
  have e1 : ∀ o : ℚ → ℕ, (Color.ofFloats o 2 0 0 1).r = o 510 % 256 := by
    intro o
    show clamp (castUint8 o (2 * 255)) 0 255 = _
    rw [clamp_castUint8]
    have e : (2 : ℚ) * 255 = 510 := by norm_num
    rw [e]
    exact castUint8_of_ge o 510 (by norm_num)
  have e2 : ∀ o : ℚ → ℕ, (Color.ofFloats o (-1) 0 0 1).r = o (-255) % 256 := by
    intro o
    show clamp (castUint8 o (-1 * 255)) 0 255 = _
    rw [clamp_castUint8]
    have e : (-1 : ℚ) * 255 = -255 := by norm_num
    rw [e]
    exact castUint8_of_le o (-255) (by norm_num)
  have t1 : ftrunc (510 : ℚ) = 510 := by
    have := ftrunc_intCast 510
    simpa using this
  have t2 : ftrunc (-255 : ℚ) = -255 := by
    have := ftrunc_intCast (-255)
    simpa using this
  have e3 : ∀ (red green blue alpha : ℚ) (n : ℕ), n ≤ 255 → (n : ℚ) ≤ red * 255 →
      red * 255 < n + 1 → (Color.ofFloats oor red green blue alpha).r = n := by
    intro red green blue alpha n hn h1 h2
    show clamp (castUint8 oor (red * 255)) 0 255 = n
    rw [clamp_castUint8]
    exact castUint8_of_floor oor _ n hn h1 h2
  refine ⟨e1 oor, ?_, e2 oor, ?_, e3, ?_⟩
  · rw [e1]
    show (ftrunc 510 % 256).toNat % 256 = 254
    rw [t1]; rfl
  · rw [e2]
    show (ftrunc (-255) % 256).toNat % 256 = 1
    rw [t2]; rfl
  · intro red green blue alpha h1 h2
    refine e3 red green blue alpha 255 (le_refl _) ?_ ?_
    · have : (255 : ℚ) ≤ red * 255 := by linarith
      exact_mod_cast this
    · have : red * 255 < 256 := by
        have := (lt_div_iff₀ (show (0 : ℚ) < 255 by norm_num)).mp h2
        exact this
      have e : ((255 : ℕ) : ℚ) + 1 = 256 := by norm_num
      rw [e]; exact this

/-! ## Primitive assembly: lemmas -/

theorem collect_eq_none_iff {α : Type} (l : List (Option α)) : collect l = none ↔ none ∈ l := by
  induction l with
  | nil => simp [collect]
  | cons x rest ih =>
    cases x with
    | none => simp [collect]
    | some v =>
      simp only [collect, Option.map_eq_none', ih, List.mem_cons, reduceCtorEq, false_or]

theorem collect_map_of_forall {α β : Type} (l : List α) (f : α → Option β) (g : α → β)
    (h : ∀ x ∈ l, f x = some (g x)) : collect (l.map f) = some (l.map g) := by
  induction l with
  | nil => rfl
  | cons x rest ih =>
    rw [List.map_cons, h x (List.mem_cons_self x rest)]
    simp only [collect]
    rw [ih (fun y hy => h y (List.mem_cons_of_mem x hy))]
    rfl

theorem mem_groupStarts (size i : ℕ) : i ∈ groupStarts size ↔ ∃ k, 3 * k < size ∧ i = 3 * k := by
  unfold groupStarts
  rw [List.mem_map]
  constructor
  · rintro ⟨k, hk, rfl⟩
    rw [List.mem_range] at hk
    exact ⟨k, by omega, rfl⟩
  · rintro ⟨k, hk, rfl⟩
    exact ⟨k, by rw [List.mem_range]; omega, rfl⟩

theorem mem_primitiveAssemblyReads (size r : ℕ) :
    r ∈ primitiveAssemblyReads size ↔ ∃ k, 3 * k < size ∧ (r = 3 * k ∨ r = 3 * k + 1 ∨ r = 3 * k + 2) := by
  unfold primitiveAssemblyReads groupReads
  rw [List.mem_flatMap]
  constructor
  · rintro ⟨i, hi, hr⟩
    obtain ⟨k, hk, rfl⟩ := (mem_groupStarts size i).mp hi
    simp only [List.mem_cons, List.mem_singleton, List.not_mem_nil, or_false] at hr
    exact ⟨k, hk, hr⟩
  · rintro ⟨k, hk, hr⟩
    refine ⟨3 * k, (mem_groupStarts size _).mpr ⟨k, hk, rfl⟩, ?_⟩
    simp only [List.mem_cons, List.mem_singleton, List.not_mem_nil, or_false]
    exact hr

theorem groupStarts_add_three (size : ℕ) :
    groupStarts (size + 3) = 0 :: (groupStarts size).map (fun i => i + 3) := by
  unfold groupStarts
  have e : (size + 3 + 2) / 3 = (size + 2) / 3 + 1 := by omega
  rw [e, List.range_succ_eq_map, List.map_cons, List.map_map, List.map_map]
  refine congrArg₂ List.cons rfl (List.map_congr_left ?_)
  intro k _
  simp only [Function.comp]
  omega

theorem vertexGroup_zero (a b c : Vertex) (rest : List Vertex) :
    vertexGroup (a :: b :: c :: rest) 0 = some [a, b, c] := by
  simp [vertexGroup, groupReads, collect]

theorem vertexGroup_add_three (a b c : Vertex) (rest : List Vertex) (i : ℕ) :
    vertexGroup (a :: b :: c :: rest) (i + 3) = vertexGroup rest i := by
  unfold vertexGroup groupReads
  have shift : ∀ j : ℕ, (a :: b :: c :: rest)[j + 3]? = rest[j]? := by
    intro j
    rw [show j + 3 = j + 1 + 1 + 1 from rfl, List.getElem?_cons_succ, List.getElem?_cons_succ,
      List.getElem?_cons_succ]
  have e0 : (a :: b :: c :: rest)[i + 3]? = rest[i]? := shift i
  have e1 : (a :: b :: c :: rest)[i + 3 + 1]? = rest[i + 1]? := by
    rw [show i + 3 + 1 = (i + 1) + 3 by omega]; exact shift (i + 1)
  have e2 : (a :: b :: c :: rest)[i + 3 + 2]? = rest[i + 2]? := by
    rw [show i + 3 + 2 = (i + 2) + 3 by omega]; exact shift (i + 2)
  simp only [List.map_cons, List.map_nil, e0, e1, e2]

theorem primitiveAssembly_cons_three (a b c : Vertex) (rest : List Vertex) :
    primitiveAssembly (a :: b :: c :: rest) =
      (primitiveAssembly rest).map (fun out => [a, b, c] :: out) := by
  unfold primitiveAssembly
  have e : (a :: b :: c :: rest).length = rest.length + 3 := rfl
  rw [e, groupStarts_add_three, List.map_cons, vertexGroup_zero, List.map_map]
  have e2 : (vertexGroup (a :: b :: c :: rest) ∘ fun i => i + 3) = vertexGroup rest := by
    funext i
    exact vertexGroup_add_three a b c rest i
  rw [e2]
  rfl

theorem primitiveAssembly_nil : primitiveAssembly [] = some [] := rfl

theorem primitiveAssembly_eq_none_iff (vs : List Vertex) :
    primitiveAssembly vs = none ↔ ∃ r ∈ primitiveAssemblyReads vs.length, vs.length ≤ r := by
  unfold primitiveAssembly primitiveAssemblyReads
  rw [collect_eq_none_iff, List.mem_map]
  constructor
  · rintro ⟨i, hi, hnone⟩
    unfold vertexGroup at hnone
    rw [collect_eq_none_iff, List.mem_map] at hnone
    obtain ⟨r, hr, hget⟩ := hnone
    exact ⟨r, List.mem_flatMap.mpr ⟨i, hi, hr⟩, List.getElem?_eq_none_iff.mp hget⟩
  · rintro ⟨r, hr, hle⟩
    obtain ⟨i, hi, hri⟩ := List.mem_flatMap.mp hr
    refine ⟨i, hi, ?_⟩
    unfold vertexGroup
    rw [collect_eq_none_iff, List.mem_map]
    exact ⟨r, hri, List.getElem?_eq_none_iff.mpr hle⟩

/-! ## Primitive assembly: the claims -/

/-- C12. Primitive assembly: on a sequence `vs` of length `3 * n`,
`primitiveAssembly` returns `n` groups of 3 vertices each, the `i`-th being
`vs[3i], vs[3i+1], vs[3i+2]` in that order, whose concatenation is `vs`, and
every index it reads is below the length. -/
theorem primitiveAssembly_groups (vs : List Vertex) (n : ℕ) (hlen : vs.length = 3 * n) :
    ∃ groups, primitiveAssembly vs = some groups ∧ groups.length = n ∧
      (∀ g ∈ groups, g.length = 3) ∧
      (∀ i, i < n → ∃ a b c, vs[3 * i]? = some a ∧ vs[3 * i + 1]? = some b ∧
        vs[3 * i + 2]? = some c ∧ groups[i]? = some [a, b, c]) ∧
      groups.flatten = vs ∧
      (∀ r ∈ primitiveAssemblyReads vs.length, r < vs.length) := by
  have hreads : ∀ r ∈ primitiveAssemblyReads vs.length, r < vs.length := by
    intro r hr
    obtain ⟨k, hk, h⟩ := (mem_primitiveAssemblyReads _ r).mp hr
    omega
  suffices h : ∀ (m : ℕ) (ws : List Vertex), ws.length = 3 * m →
      ∃ groups, primitiveAssembly ws = some groups ∧ groups.length = m ∧
        (∀ g ∈ groups, g.length = 3) ∧
        (∀ i, i < m → ∃ a b c, ws[3 * i]? = some a ∧ ws[3 * i + 1]? = some b ∧
          ws[3 * i + 2]? = some c ∧ groups[i]? = some [a, b, c]) ∧
        groups.flatten = ws by
    obtain ⟨groups, h1, h2, h3, h4, h5⟩ := h n vs hlen
    exact ⟨groups, h1, h2, h3, h4, h5, hreads⟩
  intro m
  induction m with
  | zero =>
    intro ws hws
    have : ws = [] := List.length_eq_zero.mp (by omega)
    subst this
    exact ⟨[], primitiveAssembly_nil, rfl, fun g hg => absurd hg (List.not_mem_nil g),
      fun i hi => absurd hi (Nat.not_lt_zero i), rfl⟩
  | succ m ih =>
    intro ws hws
    match ws, hws with
    | a :: b :: c :: rest, hws =>
      have hrest : rest.length = 3 * m := by
        simp only [List.length_cons] at hws
        omega
      obtain ⟨groups, h1, h2, h3, h4, h5⟩ := ih rest hrest
      refine ⟨[a, b, c] :: groups, ?_, ?_, ?_, ?_, ?_⟩
      · rw [primitiveAssembly_cons_three, h1]; rfl
      · rw [List.length_cons, h2]
      · intro g hg
        rcases List.mem_cons.mp hg with rfl | hg
        · rfl
        · exact h3 g hg
      · intro i hi
        cases i with
        | zero => exact ⟨a, b, c, by simp, by simp, by simp, by simp⟩
        | succ k =>
          obtain ⟨a2, b2, c2, ea, eb, ec, eg⟩ := h4 k (by omega)
          refine ⟨a2, b2, c2, ?_, ?_, ?_, ?_⟩
          · rw [show 3 * (k + 1) = 3 * k + 1 + 1 + 1 by omega, List.getElem?_cons_succ,
              List.getElem?_cons_succ, List.getElem?_cons_succ]
            exact ea
          · rw [show 3 * (k + 1) + 1 = 3 * k + 1 + 1 + 1 + 1 by omega, List.getElem?_cons_succ,
              List.getElem?_cons_succ, List.getElem?_cons_succ]
            exact eb
          · rw [show 3 * (k + 1) + 2 = 3 * k + 2 + 1 + 1 + 1 by omega, List.getElem?_cons_succ,
              List.getElem?_cons_succ, List.getElem?_cons_succ]
            exact ec
          · rw [List.getElem?_cons_succ]
            exact eg
      · rw [List.flatten_cons, h5]; rfl
    | [], hws =>
      exfalso
      simp only [List.length_cons, List.length_nil] at hws
      omega
    | [_], hws =>
      exfalso
      simp only [List.length_cons, List.length_nil] at hws
      omega
    | [_, _], hws =>
      exfalso
      simp only [List.length_cons, List.length_nil] at hws
      omega

/-- Witness of C12: six vertices give two groups. -/
theorem primitiveAssembly_groups_witness :
    ∃ groups, primitiveAssembly
        [⟨⟨0, 0, 0⟩, ⟨255, 255, 255, 255⟩⟩, ⟨⟨1, 0, 0⟩, ⟨255, 255, 255, 255⟩⟩,
          ⟨⟨2, 0, 0⟩, ⟨255, 255, 255, 255⟩⟩, ⟨⟨3, 0, 0⟩, ⟨255, 255, 255, 255⟩⟩,
          ⟨⟨4, 0, 0⟩, ⟨255, 255, 255, 255⟩⟩, ⟨⟨5, 0, 0⟩, ⟨255, 255, 255, 255⟩⟩] = some groups ∧
      groups.length = 2 ∧
      groups.flatten =
        [⟨⟨0, 0, 0⟩, ⟨255, 255, 255, 255⟩⟩, ⟨⟨1, 0, 0⟩, ⟨255, 255, 255, 255⟩⟩,
          ⟨⟨2, 0, 0⟩, ⟨255, 255, 255, 255⟩⟩, ⟨⟨3, 0, 0⟩, ⟨255, 255, 255, 255⟩⟩,
          ⟨⟨4, 0, 0⟩, ⟨255, 255, 255, 255⟩⟩, ⟨⟨5, 0, 0⟩, ⟨255, 255, 255, 255⟩⟩] := by
  obtain ⟨groups, h1, h2, _, _, h5, _⟩ := primitiveAssembly_groups
    [⟨⟨0, 0, 0⟩, ⟨255, 255, 255, 255⟩⟩, ⟨⟨1, 0, 0⟩, ⟨255, 255, 255, 255⟩⟩,
      ⟨⟨2, 0, 0⟩, ⟨255, 255, 255, 255⟩⟩, ⟨⟨3, 0, 0⟩, ⟨255, 255, 255, 255⟩⟩,
      ⟨⟨4, 0, 0⟩, ⟨255, 255, 255, 255⟩⟩, ⟨⟨5, 0, 0⟩, ⟨255, 255, 255, 255⟩⟩] 2 rfl
  exact ⟨groups, h1, h2, h5⟩

/-- C18. Trailing partial group: on a sequence whose length is not a multiple
of 3 the last pass of the loop starts at an index `i` below the length and
reads index `i + 2`, which is at or past the end (and so is `i + 1` when one
vertex is left over), so `primitiveAssembly` performs an out-of-bounds read;
conversely an index at or past the end is read only if the length is not a
multiple of 3, and the function has a result exactly when no such read
occurs. -/
theorem primitiveAssembly_out_of_bounds (vs : List Vertex) :
    (vs.length % 3 ≠ 0 →
      3 * (vs.length / 3) ∈ groupStarts vs.length ∧
      3 * (vs.length / 3) + 1 ∈ primitiveAssemblyReads vs.length ∧
      3 * (vs.length / 3) + 2 ∈ primitiveAssemblyReads vs.length ∧
      vs.length ≤ 3 * (vs.length / 3) + 2 ∧
      (vs.length % 3 = 1 → vs.length ≤ 3 * (vs.length / 3) + 1) ∧
      primitiveAssembly vs = none) ∧
    ((∃ r ∈ primitiveAssemblyReads vs.length, vs.length ≤ r) ↔ vs.length % 3 ≠ 0) ∧
    (primitiveAssembly vs = none ↔ ∃ r ∈ primitiveAssemblyReads vs.length, vs.length ≤ r) := by
  have hfwd : vs.length % 3 ≠ 0 →
      3 * (vs.length / 3) + 2 ∈ primitiveAssemblyReads vs.length ∧
        vs.length ≤ 3 * (vs.length / 3) + 2 := by
    intro h
    exact ⟨(mem_primitiveAssemblyReads _ _).mpr ⟨vs.length / 3, by omega, Or.inr (Or.inr rfl)⟩,
      by omega⟩
  refine ⟨?_, ⟨?_, ?_⟩, primitiveAssembly_eq_none_iff vs⟩
  · intro h
    refine ⟨(mem_groupStarts _ _).mpr ⟨vs.length / 3, by omega, rfl⟩,
      (mem_primitiveAssemblyReads _ _).mpr ⟨vs.length / 3, by omega, Or.inr (Or.inl rfl)⟩,
      (hfwd h).1, (hfwd h).2, fun h1 => by omega, ?_⟩
    exact (primitiveAssembly_eq_none_iff vs).mpr ⟨_, (hfwd h).1, (hfwd h).2⟩
  · rintro ⟨r, hr, hle⟩
    obtain ⟨k, hk, h⟩ := (mem_primitiveAssemblyReads _ r).mp hr
    omega
  · intro h
    exact ⟨_, (hfwd h).1, (hfwd h).2⟩

/-! ## Vertex array: the claim -/

theorem collect_length {α : Type} (l : List (Option α)) (out : List α)
    (h : collect l = some out) : out.length = l.length := by
  induction l generalizing out with
  | nil =>
    simp only [collect, Option.some.injEq] at h
    rw [← h]
    rfl
  | cons x rest ih =>
    cases x with
    | none => simp [collect] at h
    | some v =>
      simp only [collect, Option.map_eq_some'] at h
      obtain ⟨out2, h2, rfl⟩ := h
      rw [List.length_cons, List.length_cons, ih out2 h2]

/-- C16. Vertex-array construction: when the position index of every face
entry is a valid index of the vertex list, `setupVertexArray` returns a list
as long as the total number of face entries, whose `k`-th element is
`vertices[p]` for the position index `p` (the first of the three indices) of
the `k`-th entry, entries being taken face by face and in order within a face;
two face lists with the same position indices give the same list, whatever
their texture and normal indices. -/
theorem setupVertexArray_positions (vertices : List Vec3) (faces : List Face)
    (hvalid : ∀ face ∈ faces, ∀ e ∈ face.vertexIndices,
      0 ≤ e.1 ∧ e.1 < (vertices.length : ℤ)) :
    ∃ out, setupVertexArray vertices faces = some out ∧
      out.length = (faces.map (fun face => face.vertexIndices.length)).sum ∧
      (∀ (k : ℕ) (e : ℤ × ℤ × ℤ), (faces.flatMap (fun face => face.vertexIndices))[k]? = some e →
        (∃ v, out[k]? = some v) ∧ out[k]? = vertices[e.1.toNat]?) ∧
      (∀ faces2 : List Face,
        (faces2.flatMap (fun face => face.vertexIndices)).map (fun e => e.1) =
          (faces.flatMap (fun face => face.vertexIndices)).map (fun e => e.1) →
        setupVertexArray vertices faces2 = some out) := by
  have hlook : ∀ e ∈ faces.flatMap (fun face => face.vertexIndices),
      vertexAt vertices e = some ((vertices[e.1.toNat]?).getD ⟨0, 0, 0⟩) ∧
        vertices[e.1.toNat]? = some ((vertices[e.1.toNat]?).getD ⟨0, 0, 0⟩) := by
    intro e he
    obtain ⟨face, hface, hmem⟩ := List.mem_flatMap.mp he
    obtain ⟨h0, h1⟩ := hvalid face hface e hmem
    have hlt : e.1.toNat < vertices.length := by omega
    have hsome : vertices[e.1.toNat]? = some ((vertices[e.1.toNat]?).getD ⟨0, 0, 0⟩) := by
      rw [List.getElem?_eq_getElem hlt]; rfl
    refine ⟨?_, hsome⟩
    unfold vertexAt
    rw [if_pos h0]
    exact hsome
  have hout : setupVertexArray vertices faces =
      some ((faces.flatMap (fun face => face.vertexIndices)).map
        (fun e => (vertices[e.1.toNat]?).getD ⟨0, 0, 0⟩)) :=
    collect_map_of_forall _ _ _ (fun e he => (hlook e he).1)
  have hfst : ∀ entries : List (ℤ × ℤ × ℤ), entries.map (vertexAt vertices) =
      (entries.map (fun e => e.1)).map
        (fun p => if 0 ≤ p then vertices[p.toNat]? else none) := by
    intro entries
    rw [List.map_map]
    rfl
  refine ⟨_, hout, ?_, ?_, ?_⟩
  · rw [List.length_map, List.length_flatMap]
    rfl
  · intro k e hk
    have he : e ∈ faces.flatMap (fun face => face.vertexIndices) := List.getElem?_mem hk
    rw [List.getElem?_map, hk, Option.map_some', (hlook e he).2]
    exact ⟨⟨_, rfl⟩, rfl⟩
  · intro faces2 h2
    rw [← hout]
    unfold setupVertexArray
    rw [hfst, hfst, h2]

/-- Witness of C16: three vertices and two faces whose entries differ in
their texture and normal indices; the result lists the vertices 2, 0, 1. -/
theorem setupVertexArray_positions_witness :
    setupVertexArray [⟨0, 0, 0⟩, ⟨1, 0, 0⟩, ⟨0, 1, 0⟩]
        [⟨[(2, 7, 7), (0, 8, 8)]⟩, ⟨[(1, 9, 9)]⟩] =
      some [⟨0, 1, 0⟩, ⟨0, 0, 0⟩, ⟨1, 0, 0⟩] ∧
    ∃ out, setupVertexArray [⟨0, 0, 0⟩, ⟨1, 0, 0⟩, ⟨0, 1, 0⟩]
        [⟨[(2, 7, 7), (0, 8, 8)]⟩, ⟨[(1, 9, 9)]⟩] = some out ∧ out.length = 3 := by
  obtain ⟨out, h1, h2, _, _⟩ := setupVertexArray_positions [⟨0, 0, 0⟩, ⟨1, 0, 0⟩, ⟨0, 1, 0⟩]
    [⟨[(2, 7, 7), (0, 8, 8)]⟩, ⟨[(1, 9, 9)]⟩]
    (by
      intro face hface e he
      simp only [List.mem_cons, List.mem_singleton, List.not_mem_nil, or_false] at hface
      rcases hface with rfl | rfl
      · simp only [List.mem_cons, List.mem_singleton, List.not_mem_nil, or_false] at he
        rcases he with rfl | rfl <;> simp
      · simp only [List.mem_cons, List.mem_singleton, List.not_mem_nil, or_false] at he
        subst he
        simp)
  refine ⟨?_, out, h1, h2⟩
  simp [setupVertexArray, collect, vertexAt]

/-! ## Depth export, index safety and projection: the claims -/

theorem foldl_fixed {α β : Type} (g : β → α → β) (l : List α) (acc : β)
    (h : ∀ x ∈ l, g acc x = acc) : l.foldl g acc = acc := by
  induction l with
  | nil => rfl
  | cons x rest ih =>
    rw [List.foldl_cons, h x (List.mem_cons_self x rest)]
    exact ih (fun y hy => h y (List.mem_cons_of_mem x hy))

theorem scanCell_sentinel (acc : ℚ × ℚ) : scanCell acc 99999 = acc := by
  unfold scanCell
  rw [if_neg (by simp)]

/-- C17 (what the code does on an empty frame). When every cell holds the
sentinel 99999 the scan skips every cell (a sentinel never changes `zMin` or
`zMax`), so `zMin` keeps `max()` and `zMax` keeps `lowest()`; these differ,
the test `zMin == zMax` is false and `writeBMP` does not take its reporting
branch: when the file opens it goes on to the pixel loop with these two
values. -/
theorem writeBMP_empty_frame (fileOpens : Bool) (s : State)
    (hs : ∀ j i, s.zbuffer j i = 99999) :
    (∀ acc, scanCell acc 99999 = acc) ∧
    depthRange s.zbuffer = (FLT_MAX, -FLT_MAX) ∧
    writeBMP fileOpens s ≠ Export.reported ∧
    writeBMP true s = Export.normalised FLT_MAX (-FLT_MAX) := by
  have hrange : depthRange s.zbuffer = (FLT_MAX, -FLT_MAX) := by
    unfold depthRange
    refine foldl_fixed _ _ _ ?_
    intro j _
    refine foldl_fixed _ _ _ ?_
    intro i _
    rw [hs j i]
    exact scanCell_sentinel _
  have hne : ¬ (FLT_MAX = -FLT_MAX) := by
    unfold FLT_MAX
    norm_num
  refine ⟨scanCell_sentinel, hrange, ?_, ?_⟩
  · unfold writeBMP
    rw [hrange, if_neg hne]
    split_ifs <;> simp
  · unfold writeBMP
    rw [hrange, if_neg hne]
    simp

/-- Witness of the C17 evaluation: the buffer right after `clear`. -/
theorem writeBMP_empty_frame_witness :
    writeBMP true (clear ⟨fun _ _ => 0, fun _ _ => ⟨0, 0, 0, 0⟩⟩) =
      Export.normalised FLT_MAX (-FLT_MAX) :=
  (writeBMP_empty_frame true (clear ⟨fun _ _ => 0, fun _ _ => ⟨0, 0, 0, 0⟩⟩)
    (fun _ _ => rfl)).2.2.2

/-- C19. Depth-buffer index safety: every cell of `zbuffer` that `point` reads
or writes has its row in `[0, 680)` and its column in `[0, 840)`, for a
fragment at any position: the cell is touched only once the four bounds
comparisons hold, and then the truncated `y` and `x` are in range.  A cell
whose depth `point` changes is among the cells accessed, and a fragment that
fails the bounds test accesses no cell. -/
theorem point_index_safe (s : State) (f : Fragment) :
    (∀ cell ∈ pointAccesses s f, cell.1 < WINDOW_HEIGHT ∧ cell.2 < WINDOW_WIDTH) ∧
    (∀ cell ∈ pointAccesses s f, cell = (fidx f.position.y, fidx f.position.x) ∧
      0 ≤ ftrunc f.position.y ∧ ftrunc f.position.y < 680 ∧
      0 ≤ ftrunc f.position.x ∧ ftrunc f.position.x < 840) ∧
    (∀ j i, (point s f).zbuffer j i ≠ s.zbuffer j i → (j, i) ∈ pointAccesses s f) ∧
    (¬ inBounds f → pointAccesses s f = []) := by
  have hrange : inBounds f →
      0 ≤ ftrunc f.position.y ∧ ftrunc f.position.y < 680 ∧
      0 ≤ ftrunc f.position.x ∧ ftrunc f.position.x < 840 := by
    rintro ⟨h1, h2, h3, h4⟩
    simp only [WINDOW_HEIGHT, WINDOW_WIDTH, Nat.cast_ofNat] at h1 h2
    unfold ftrunc
    rw [if_pos (le_of_lt h3), if_pos (le_of_lt h4)]
    refine ⟨Int.floor_nonneg.mpr (le_of_lt h3), Int.floor_lt.mpr (by exact_mod_cast h1),
      Int.floor_nonneg.mpr (le_of_lt h4), Int.floor_lt.mpr (by exact_mod_cast h2)⟩
  have hmem : ∀ cell ∈ pointAccesses s f,
      inBounds f ∧ cell = (fidx f.position.y, fidx f.position.x) := by
    intro cell hc
    unfold pointAccesses at hc
    by_cases hb : f.position.y < WINDOW_HEIGHT ∧ f.position.x < WINDOW_WIDTH ∧
        f.position.y > 0 ∧ f.position.x > 0
    · rw [if_pos hb] at hc
      refine ⟨hb, ?_⟩
      rcases List.mem_cons.mp hc with h | h
      · exact h
      · split_ifs at h
        · exact List.mem_singleton.mp h
        · exact absurd h (List.not_mem_nil _)
    · rw [if_neg hb] at hc
      exact absurd hc (List.not_mem_nil _)
  refine ⟨?_, ?_, ?_, ?_⟩
  · intro cell hc
    obtain ⟨hb, rfl⟩ := hmem cell hc
    obtain ⟨a1, a2, a3, a4⟩ := hrange hb
    unfold fidx WINDOW_HEIGHT WINDOW_WIDTH
    constructor
    · show (ftrunc f.position.y).toNat < 680
      omega
    · show (ftrunc f.position.x).toNat < 840
      omega
  · intro cell hc
    obtain ⟨hb, rfl⟩ := hmem cell hc
    exact ⟨rfl, hrange hb⟩
  · intro j i hne
    rw [point_zbuffer] at hne
    by_cases hacc : reaches i j f ∧ f.position.z < s.zbuffer j i
    · obtain ⟨⟨hb, hi, hj⟩, _⟩ := hacc
      unfold inBounds at hb
      unfold pointAccesses
      rw [if_pos hb, ← hi, ← hj]
      exact List.mem_cons_self _ _
    · rw [if_neg hacc] at hne
      exact absurd rfl hne
  · intro hb
    unfold inBounds at hb
    unfold pointAccesses
    rw [if_neg hb]

/-- C20 (what the code does). The aspect ratio `createProjectionMatrix` passes
to the perspective projection is the quotient of the `int` division
`840 / 680`, that is 1, and not the ratio `840 / 680 = 21 / 17` of the
window. -/
theorem createProjectionMatrix_aspect (radians : ℚ → ℚ) (perspective : ℚ → ℚ → ℚ → ℚ → Mat4) :
    createProjectionMatrix radians perspective = perspective (radians 85) 1 (1 / 10) 100 ∧
    aspectRatio = 1 ∧ aspectRatio ≠ 21 / 17 ∧
    (WINDOW_WIDTH : ℚ) / (WINDOW_HEIGHT : ℚ) = 21 / 17 := by
  have h1 : aspectRatio = 1 := by
    unfold aspectRatio WINDOW_WIDTH WINDOW_HEIGHT
    norm_num
  refine ⟨?_, h1, ?_, ?_⟩
  · unfold createProjectionMatrix
    rw [h1]
  · rw [h1]; norm_num
  · unfold WINDOW_WIDTH WINDOW_HEIGHT
    norm_num

/-! ## Binary32 arithmetic: lemmas -/

theorem roundHalfEven_near (x : ℚ) (m : ℤ) (h : -(1 / 2) < x - m ∧ x - m < 1 / 2) :
    Binary32.roundHalfEven x = m := by
  obtain ⟨h1, h2⟩ := h
  unfold Binary32.roundHalfEven
  by_cases hx : (m : ℚ) ≤ x
  · have hf : ⌊x⌋ = m := Int.floor_eq_iff.mpr ⟨hx, by linarith⟩
    rw [hf, if_pos (by linarith)]
  · have hf : ⌊x⌋ = m - 1 := Int.floor_eq_iff.mpr ⟨by push_cast; linarith, by push_cast; linarith⟩
    rw [hf, if_neg (by push_cast; linarith), if_pos (by push_cast; linarith)]
    ring

theorem roundHalfEven_intCast (m : ℤ) : Binary32.roundHalfEven (m : ℚ) = m :=
  roundHalfEven_near _ m (by norm_num)

theorem roundHalfEven_tie (x : ℚ) (m : ℤ) (h : x = m + 1 / 2 ∨ x = m - 1 / 2)
    (hm : m % 2 = 0) : Binary32.roundHalfEven x = m := by
  unfold Binary32.roundHalfEven
  rcases h with h | h
  · have hf : ⌊x⌋ = m := Int.floor_eq_iff.mpr ⟨by rw [h]; linarith, by rw [h]; linarith⟩
    rw [hf, if_neg (by rw [h]; norm_num), if_neg (by rw [h]; norm_num), if_pos hm]
  · have hf : ⌊x⌋ = m - 1 := Int.floor_eq_iff.mpr ⟨by rw [h]; push_cast; linarith,
      by rw [h]; push_cast; linarith⟩
    rw [hf, if_neg (by rw [h]; push_cast; norm_num), if_neg (by rw [h]; push_cast; norm_num),
      if_neg (by omega)]
    ring

theorem log_abs_eq_of_bounds (q : ℚ) (e : ℤ) (h1 : (2 : ℚ) ^ e ≤ |q|) (h2 : |q| < (2 : ℚ) ^ (e + 1)) :
    Int.log 2 |q| = e := by
  have hpos : (0 : ℚ) < |q| := lt_of_lt_of_le (by positivity) h1
  have a1 : e ≤ Int.log 2 |q| := by
    rw [← Int.zpow_le_iff_le_log (by norm_num) hpos]
    simpa using h1
  have a2 : Int.log 2 |q| < e + 1 := by
    rw [← Int.lt_zpow_iff_log_lt (by norm_num) hpos]
    simpa using h2
  omega

theorem log_abs_of_range (q : ℚ) (k : ℤ)
    (h : ((2 : ℚ) ^ (k + 23) ≤ q ∧ q < (2 : ℚ) ^ (k + 24)) ∨
      ((2 : ℚ) ^ (k + 23) ≤ -q ∧ -q < (2 : ℚ) ^ (k + 24))) :
    q ≠ 0 ∧ Int.log 2 |q| = k + 23 := by
  have hp : (0 : ℚ) < 2 ^ (k + 23) := by positivity
  have h12 : (2 : ℚ) ^ (k + 23) ≤ |q| ∧ |q| < (2 : ℚ) ^ (k + 24) := by
    rcases h with ⟨a, b⟩ | ⟨a, b⟩
    · rw [abs_of_pos (lt_of_lt_of_le hp a)]; exact ⟨a, b⟩
    · rw [abs_of_neg (by linarith)]; exact ⟨a, b⟩
  refine ⟨?_, log_abs_eq_of_bounds q (k + 23) h12.1 (by
    rw [show k + 23 + 1 = k + 24 by ring]; exact h12.2)⟩
  intro h0
  rw [h0, abs_zero] at h12
  exact absurd h12.1 (not_le.mpr hp)

theorem fround_near (q : ℚ) (k m : ℤ)
    (h : ((2 : ℚ) ^ (k + 23) ≤ q ∧ q < (2 : ℚ) ^ (k + 24)) ∨
      ((2 : ℚ) ^ (k + 23) ≤ -q ∧ -q < (2 : ℚ) ^ (k + 24)))
    (hk : -149 ≤ k) (h3 : -(1 / 2) < q / 2 ^ k - m ∧ q / 2 ^ k - m < 1 / 2) :
    Binary32.fround q = m * 2 ^ k := by
  obtain ⟨hq, he⟩ := log_abs_of_range q k h
  unfold Binary32.fround
  rw [if_neg hq, he, max_eq_left (by omega), show k + 23 - 23 = k by ring,
    roundHalfEven_near _ m h3]

theorem fround_tie (q : ℚ) (k m : ℤ)
    (h : ((2 : ℚ) ^ (k + 23) ≤ q ∧ q < (2 : ℚ) ^ (k + 24)) ∨
      ((2 : ℚ) ^ (k + 23) ≤ -q ∧ -q < (2 : ℚ) ^ (k + 24)))
    (hk : -149 ≤ k) (h3 : q / 2 ^ k = m + 1 / 2 ∨ q / 2 ^ k = m - 1 / 2)
    (hm : m % 2 = 0) : Binary32.fround q = m * 2 ^ k := by
  obtain ⟨hq, he⟩ := log_abs_of_range q k h
  unfold Binary32.fround
  rw [if_neg hq, he, max_eq_left (by omega), show k + 23 - 23 = k by ring,
    roundHalfEven_tie _ m h3 hm]

theorem fround_exact (q : ℚ) (k m : ℤ) (hq : q = m * 2 ^ k) (hk : -149 ≤ k)
    (hm : |m| < 2 ^ 24) : Binary32.fround q = q := by
  by_cases h0 : q = 0
  · unfold Binary32.fround; rw [if_pos h0, h0]
  have hm0 : m ≠ 0 := by
    rintro rfl
    exact h0 (by rw [hq]; simp)
  have hpos : (0 : ℚ) < |q| := abs_pos.mpr h0
  have habs : |q| < (2 : ℚ) ^ (k + 24) := by
    rw [hq, abs_mul, abs_of_pos (show (0 : ℚ) < 2 ^ k by positivity), zpow_add₀ (by norm_num),
      mul_comm]
    have hm2 : (|(m : ℚ)|) < 2 ^ (24 : ℤ) := by
      have : ((|m| : ℤ) : ℚ) < ((2 ^ 24 : ℤ) : ℚ) := Int.cast_lt.mpr hm
      rw [Int.cast_abs] at this
      norm_num at this ⊢
      exact this
    exact mul_lt_mul_of_pos_left hm2 (by positivity)
  have hlog : Int.log 2 |q| < k + 24 := by
    rw [← Int.lt_zpow_iff_log_lt (by norm_num) hpos]
    simpa using habs
  have hmax : max (Int.log 2 |q|) (-126) ≤ k + 23 := max_le (by omega) (by omega)
  obtain ⟨e, he⟩ : ∃ e : ℤ, max (Int.log 2 |q|) (-126) = e := ⟨_, rfl⟩
  rw [he] at hmax
  obtain ⟨n, hn⟩ : ∃ n : ℕ, k - (e - 23) = n := ⟨(k - (e - 23)).toNat, by omega⟩
  have hquot : q / 2 ^ (e - 23) = ((m * 2 ^ n : ℤ) : ℚ) := by
    rw [hq, mul_div_assoc, ← zpow_sub₀ (by norm_num), hn, zpow_natCast]
    push_cast
    rfl
  unfold Binary32.fround
  rw [if_neg h0, he, hquot, roundHalfEven_intCast]
  push_cast
  rw [mul_assoc, ← zpow_natCast, ← zpow_add₀ (by norm_num), ← hn, hq]
  congr 2
  ring

theorem fround_zero : Binary32.fround 0 = 0 := by
  unfold Binary32.fround
  rw [if_pos rfl]

/-- When no operation rounds, the binary32 computation returns the exact
quotients. -/
theorem barycentricCoordinates_of_exactAt (P A B C : Vec3) (hex : Binary32.exactAt P A B C) :
    Binary32.barycentricCoordinates P A B C = barycentricCoordinates P A B C := by
  obtain ⟨⟨s1, s2, s3, s4, s5, s6, s7⟩, ⟨p1, p2, p3, p4, p5, p6⟩, ⟨a1, a2, a3⟩,
    ⟨d1, d2, t1, t2⟩⟩ := hex
  unfold Binary32.barycentricCoordinates barycentricCoordinates
  simp only [s1.1, s2.1, s3.1, s4.1, s5.1, s6.1, s7.1, p1.1, p2.1, p3.1, p4.1, p5.1, p6.1, a1.1,
    a2.1, a3.1]
  by_cases hd : (B.y - C.y) * (A.x - C.x) + (C.x - B.x) * (A.y - C.y) = 0
  · simp only [Binary32.fdiv, fdiv, if_pos hd, Binary32.fsub, fsub]
  · simp only [Binary32.fdiv, fdiv, if_neg hd, Binary32.fsub, fsub, d1.1, d2.1, t1.1, t2.1]

theorem mulMM_of_exactMM (m n : Mat4) (h : Binary32.exactMM m n) : Binary32.mulMM m n = m * n := by
  funext i j
  obtain ⟨h0, h1, h2, h3, h4, h5, h6⟩ := h i j
  simp only [Binary32.mulMM, Matrix.mul_apply, Fin.sum_univ_four, h0.1, h1.1, h2.1, h3.1, h4.1,
    h5.1, h6.1]

theorem mulMV_of_exactMV (m : Mat4) (v : Fin 4 → ℚ) (h : Binary32.exactMV m v) :
    Binary32.mulMV m v = m.mulVec v := by
  funext i
  obtain ⟨h0, h1, h2, h3, h4, h5, h6⟩ := h i
  simp only [Binary32.mulMV, Matrix.mulVec, Matrix.dotProduct, Fin.sum_univ_four, h0.1, h1.1,
    h2.1, h3.1, h4.1, h5.1, h6.1]
  ring

theorem vertexShader32_of_exactTransform (vertex : Vertex) (u : Uniform)
    (hex : Binary32.exactTransform vertex u) :
    Binary32.vertexShader vertex u = vertexShader vertex u := by
  obtain ⟨h1, h2, h3, h4, h5⟩ := hex
  have e1 := mulMM_of_exactMM _ _ h1
  have e2 := mulMM_of_exactMM _ _ h2
  have e3 := mulMM_of_exactMM _ _ h3
  have e4 := mulMV_of_exactMV _ _ h4
  unfold Binary32.vertexShader vertexShader
  rw [e1, e2, e3, e4]
  unfold Binary32.fdiv fdiv
  rw [(h5 0).1, (h5 1).1, (h5 2).1]

/-! ## Rasterizer in binary32: lemmas -/

/-- The value of `barycentricCoordinates` in binary32 from the values of its
two numerators, its denominator, the two quotients and the two subtractions. -/
theorem barycentricCoordinates32_eq (P A B C : Vec3) (d nw nv w v u1 u : ℚ)
    (hd : Binary32.fround
      (Binary32.fround (Binary32.fround (B.y - C.y) * Binary32.fround (A.x - C.x)) +
        Binary32.fround (Binary32.fround (C.x - B.x) * Binary32.fround (A.y - C.y))) = d)
    (hnw : Binary32.fround
      (Binary32.fround (Binary32.fround (B.y - C.y) * Binary32.fround (P.x - C.x)) +
        Binary32.fround (Binary32.fround (C.x - B.x) * Binary32.fround (P.y - C.y))) = nw)
    (hnv : Binary32.fround
      (Binary32.fround (Binary32.fround (C.y - A.y) * Binary32.fround (P.x - C.x)) +
        Binary32.fround (Binary32.fround (A.x - C.x) * Binary32.fround (P.y - C.y))) = nv)
    (hd0 : d ≠ 0) (hw : Binary32.fround (nw / d) = w) (hv : Binary32.fround (nv / d) = v)
    (hu1 : Binary32.fround (1 - w) = u1) (hu : Binary32.fround (u1 - v) = u) :
    Binary32.barycentricCoordinates P A B C = ⟨some w, some v, some u⟩ := by
  unfold Binary32.barycentricCoordinates
  simp only [hd, hnw, hnv, Binary32.fdiv, if_neg hd0, hw, hv, Binary32.fsub, hu1, hu]

/-! ## Rasterizer in binary32: the claims -/

/-- C6, counterexample.  In the triangle `(0,0) (3,0) (0,3)` the weights
`1/3, 1/3, 1/3` give the point `(1, 1)`; there binary32 returns
`(0.33333334, 0.33333334, 0.33333328)`, which is not `(1/3, 1/3, 1/3)` and
whose sum is `1 - 2^-25`, not 1.  In the triangle `(0,0) (3,3) (3,0)` the
point `(1, 1 - 2^-24)` has three positive weights, so it is strictly inside,
and binary32 returns `u = 0`, which is not in the open interval `(0, 1)`. -/
theorem barycentric_counterexample :
    denominator ⟨0, 0, 0⟩ ⟨3, 0, 0⟩ ⟨0, 3, 0⟩ ≠ 0 ∧
    ((1 / 3 : ℚ) + 1 / 3 + 1 / 3 = 1) ∧
    (((((⟨0, 0, 0⟩ : Vec3).smul (1 / 3)).add ((⟨3, 0, 0⟩ : Vec3).smul (1 / 3))).add
          ((⟨0, 3, 0⟩ : Vec3).smul (1 / 3)))) = ⟨1, 1, 0⟩ ∧
    Binary32.barycentricCoordinates ⟨1, 1, 0⟩ ⟨0, 0, 0⟩ ⟨3, 0, 0⟩ ⟨0, 3, 0⟩ =
      ⟨some (11184811 / 33554432), some (11184811 / 33554432), some (11184809 / 33554432)⟩ ∧
    (((11184811 / 33554432 : ℚ) + 11184811 / 33554432 + 11184809 / 33554432 ≠ 1)) ∧
    denominator ⟨0, 0, 0⟩ ⟨3, 3, 0⟩ ⟨3, 0, 0⟩ ≠ 0 ∧
    ((0 : ℚ) < (2 / 3) ∧ (0 : ℚ) < (5592405 / 16777216) ∧ (0 : ℚ) < (1 / 50331648) ∧
      (2 / 3 : ℚ) + (5592405 / 16777216) + (1 / 50331648) = 1) ∧
    (((((⟨0, 0, 0⟩ : Vec3).smul (2 / 3)).add ((⟨3, 3, 0⟩ : Vec3).smul (5592405 / 16777216))).add
          ((⟨3, 0, 0⟩ : Vec3).smul (1 / 50331648)))) =
      ⟨1, (16777215 / 16777216), 0⟩ ∧
    Binary32.barycentricCoordinates ⟨1, (16777215 / 16777216), 0⟩ ⟨0, 0, 0⟩ ⟨3, 3, 0⟩ ⟨3, 0, 0⟩ =
      ⟨some (11184811 / 16777216), some (5592405 / 16777216), some 0⟩ := by
  have h1 : Binary32.barycentricCoordinates ⟨1, 1, 0⟩ ⟨0, 0, 0⟩ ⟨3, 0, 0⟩ ⟨0, 3, 0⟩ =
      ⟨some (11184811 / 33554432), some (11184811 / 33554432), some (11184809 / 33554432)⟩ := by
    have e0 : Binary32.fround (-3 : ℚ) = (-3 : ℚ) :=
      fround_exact _ 0 (-3) (by norm_num) (by norm_num) (by norm_num)
    have e1 : Binary32.fround (0 : ℚ) = (0 : ℚ) :=
      fround_zero
    have e2 : Binary32.fround (9 : ℚ) = (9 : ℚ) :=
      fround_exact _ 0 9 (by norm_num) (by norm_num) (by norm_num)
    have e3 : Binary32.fround (1 : ℚ) = (1 : ℚ) :=
      fround_exact _ 0 1 (by norm_num) (by norm_num) (by norm_num)
    have e4 : Binary32.fround (-2 : ℚ) = (-2 : ℚ) :=
      fround_exact _ 0 (-2) (by norm_num) (by norm_num) (by norm_num)
    have e5 : Binary32.fround (6 : ℚ) = (6 : ℚ) :=
      fround_exact _ 0 6 (by norm_num) (by norm_num) (by norm_num)
    have e6 : Binary32.fround (3 : ℚ) = (3 : ℚ) :=
      fround_exact _ 0 3 (by norm_num) (by norm_num) (by norm_num)
    have e7 : Binary32.fround (1 / 3 : ℚ) = (11184811 / 33554432 : ℚ) :=
      (fround_near _ (-25) 11184811 (Or.inl (by norm_num)) (by norm_num) (by norm_num)).trans
        (by norm_num)
    have e8 : Binary32.fround (22369621 / 33554432 : ℚ) = (5592405 / 8388608 : ℚ) :=
      (fround_tie _ (-24) 11184810 (Or.inl (by norm_num)) (by norm_num) (Or.inl (by norm_num))
        (by norm_num)).trans (by norm_num)
    have e9 : Binary32.fround (11184809 / 33554432 : ℚ) = (11184809 / 33554432 : ℚ) :=
      fround_exact _ (-25) 11184809 (by norm_num) (by norm_num) (by norm_num)
    exact barycentricCoordinates32_eq _ _ _ _ 9 3 3 (11184811 / 33554432) (11184811 / 33554432)
      (5592405 / 8388608) (11184809 / 33554432)
      (by norm_num [e0, e1, e2, e3, e4, e5, e6, e7, e8, e9])
      (by norm_num [e0, e1, e2, e3, e4, e5, e6, e7, e8, e9])
      (by norm_num [e0, e1, e2, e3, e4, e5, e6, e7, e8, e9])
      (by norm_num)
      (by norm_num [e0, e1, e2, e3, e4, e5, e6, e7, e8, e9])
      (by norm_num [e0, e1, e2, e3, e4, e5, e6, e7, e8, e9])
      (by norm_num [e0, e1, e2, e3, e4, e5, e6, e7, e8, e9])
      (by norm_num [e0, e1, e2, e3, e4, e5, e6, e7, e8, e9])
  have h2 : Binary32.barycentricCoordinates ⟨1, 16777215 / 16777216, 0⟩ ⟨0, 0, 0⟩ ⟨3, 3, 0⟩
      ⟨3, 0, 0⟩ =
      ⟨some (11184811 / 16777216), some (5592405 / 16777216), some 0⟩ := by
    have g0 : Binary32.fround (3 : ℚ) = (3 : ℚ) :=
      fround_exact _ 0 3 (by norm_num) (by norm_num) (by norm_num)
    have g1 : Binary32.fround (-3 : ℚ) = (-3 : ℚ) :=
      fround_exact _ 0 (-3) (by norm_num) (by norm_num) (by norm_num)
    have g2 : Binary32.fround (-9 : ℚ) = (-9 : ℚ) :=
      fround_exact _ 0 (-9) (by norm_num) (by norm_num) (by norm_num)
    have g3 : Binary32.fround (0 : ℚ) = (0 : ℚ) :=
      fround_zero
    have g4 : Binary32.fround (-2 : ℚ) = (-2 : ℚ) :=
      fround_exact _ 0 (-2) (by norm_num) (by norm_num) (by norm_num)
    have g5 : Binary32.fround (-6 : ℚ) = (-6 : ℚ) :=
      fround_exact _ 0 (-6) (by norm_num) (by norm_num) (by norm_num)
    have g6 : Binary32.fround (16777215 / 16777216 : ℚ) = (16777215 / 16777216 : ℚ) :=
      fround_exact _ (-24) 16777215 (by norm_num) (by norm_num) (by norm_num)
    have g7 : Binary32.fround (-(50331645 / 16777216) : ℚ) = (-(12582911 / 4194304) : ℚ) :=
      (fround_near _ (-22) (-12582911) (Or.inr (by norm_num)) (by norm_num) (by norm_num)).trans
        (by norm_num)
    have g8 : Binary32.fround (-(12582911 / 4194304) : ℚ) = (-(12582911 / 4194304) : ℚ) :=
      fround_exact _ (-22) (-12582911) (by norm_num) (by norm_num) (by norm_num)
    have g9 : Binary32.fround (2 / 3 : ℚ) = (11184811 / 16777216 : ℚ) :=
      (fround_near _ (-24) 11184811 (Or.inl (by norm_num)) (by norm_num) (by norm_num)).trans
        (by norm_num)
    have g10 : Binary32.fround (12582911 / 37748736 : ℚ) = (5592405 / 16777216 : ℚ) :=
      (fround_near _ (-25) 11184810 (Or.inl (by norm_num)) (by norm_num) (by norm_num)).trans
        (by norm_num)
    have g11 : Binary32.fround (5592405 / 16777216 : ℚ) = (5592405 / 16777216 : ℚ) :=
      fround_exact _ (-24) 5592405 (by norm_num) (by norm_num) (by norm_num)
    exact barycentricCoordinates32_eq _ _ _ _ (-9) (-6) (-(12582911 / 4194304))
      (11184811 / 16777216) (5592405 / 16777216) (5592405 / 16777216) 0
      (by norm_num [g0, g1, g2, g3, g4, g5, g6, g7, g8, g9, g10, g11])
      (by norm_num [g0, g1, g2, g3, g4, g5, g6, g7, g8, g9, g10, g11])
      (by norm_num [g0, g1, g2, g3, g4, g5, g6, g7, g8, g9, g10, g11])
      (by norm_num)
      (by norm_num [g0, g1, g2, g3, g4, g5, g6, g7, g8, g9, g10, g11])
      (by norm_num [g0, g1, g2, g3, g4, g5, g6, g7, g8, g9, g10, g11])
      (by norm_num [g0, g1, g2, g3, g4, g5, g6, g7, g8, g9, g10, g11])
      (by norm_num [g0, g1, g2, g3, g4, g5, g6, g7, g8, g9, g10, g11])
  refine ⟨by norm_num [denominator], by norm_num, by norm_num [Vec3.smul, Vec3.add], h1,
    by norm_num, by norm_num [denominator], by norm_num, by norm_num [Vec3.smul, Vec3.add], h2⟩

/-- C6 (amended).  Barycentric correctness in binary32: for a triangle whose
barycentric denominator is not zero and weights of sum 1, when the result of
every operation of the computation at `alpha * A + beta * B + gamma * C` is a
finite binary32 number (no operation rounds, overflows or underflows),
`barycentricCoordinates` returns `(alpha, beta, gamma)` there; so at such a
point strictly inside the triangle (three positive weights) the three
coordinates sum to 1 and each is in the open interval `(0, 1)`. -/
theorem barycentric_correct_exact (A B C : Vec3) (hnd : denominator A B C ≠ 0) (α β γ : ℚ)
    (hsum : α + β + γ = 1)
    (hex : Binary32.exactAt (((A.smul α).add (B.smul β)).add (C.smul γ)) A B C) :
    Binary32.barycentricCoordinates (((A.smul α).add (B.smul β)).add (C.smul γ)) A B C =
      ⟨some α, some β, some γ⟩ ∧
    (0 < α → 0 < β → 0 < γ →
      ∃ w v u,
        Binary32.barycentricCoordinates (((A.smul α).add (B.smul β)).add (C.smul γ)) A B C =
          ⟨some w, some v, some u⟩ ∧
        w + v + u = 1 ∧ 0 < w ∧ w < 1 ∧ 0 < v ∧ v < 1 ∧ 0 < u ∧ u < 1) := by
  have key :
      Binary32.barycentricCoordinates (((A.smul α).add (B.smul β)).add (C.smul γ)) A B C =
        ⟨some α, some β, some γ⟩ := by
    rw [barycentricCoordinates_of_exactAt _ _ _ _ hex]
    exact barycentricCoordinates_combination _ A B C hnd α β γ hsum rfl rfl
  refine ⟨key, fun ha hb hc => ⟨α, β, γ, key, hsum, ha, ?_, hb, ?_, hc, ?_⟩⟩
  · linarith
  · linarith
  · linarith

/-- Witness of C6: the triangle `(0,0) (4,0) (0,4)` and the weights
`1/2, 1/4, 1/4`, which give the point `(1, 1)`; every intermediate result is a
small multiple of `1/4`. -/
theorem barycentric_correct_exact_witness :
    Binary32.barycentricCoordinates
        (((((⟨0, 0, 0⟩ : Vec3).smul (1 / 2)).add ((⟨4, 0, 0⟩ : Vec3).smul (1 / 4))).add
          ((⟨0, 4, 0⟩ : Vec3).smul (1 / 4)))) ⟨0, 0, 0⟩ ⟨4, 0, 0⟩ ⟨0, 4, 0⟩ =
      ⟨some (1 / 2), some (1 / 4), some (1 / 4)⟩ := by
  have hex : Binary32.exactAt
      (((((⟨0, 0, 0⟩ : Vec3).smul (1 / 2)).add ((⟨4, 0, 0⟩ : Vec3).smul (1 / 4))).add
        ((⟨0, 4, 0⟩ : Vec3).smul (1 / 4)))) ⟨0, 0, 0⟩ ⟨4, 0, 0⟩ ⟨0, 4, 0⟩ := by
    have e0 : Binary32.isFloat (-4 : ℚ) :=
      ⟨fround_exact _ 0 (-4) (by norm_num) (by norm_num) (by norm_num), by norm_num [FLT_MAX],
        by norm_num [FLT_MAX]⟩
    have e1 : Binary32.isFloat (1 : ℚ) :=
      ⟨fround_exact _ 0 1 (by norm_num) (by norm_num) (by norm_num), by norm_num [FLT_MAX],
        by norm_num [FLT_MAX]⟩
    have e2 : Binary32.isFloat (-3 : ℚ) :=
      ⟨fround_exact _ 0 (-3) (by norm_num) (by norm_num) (by norm_num), by norm_num [FLT_MAX],
        by norm_num [FLT_MAX]⟩
    have e3 : Binary32.isFloat (0 : ℚ) :=
      ⟨fround_zero, by norm_num [FLT_MAX], by norm_num [FLT_MAX]⟩
    have e4 : Binary32.isFloat (4 : ℚ) :=
      ⟨fround_exact _ 0 4 (by norm_num) (by norm_num) (by norm_num), by norm_num [FLT_MAX],
        by norm_num [FLT_MAX]⟩
    have e5 : Binary32.isFloat (12 : ℚ) :=
      ⟨fround_exact _ 0 12 (by norm_num) (by norm_num) (by norm_num), by norm_num [FLT_MAX],
        by norm_num [FLT_MAX]⟩
    have e6 : Binary32.isFloat (16 : ℚ) :=
      ⟨fround_exact _ 0 16 (by norm_num) (by norm_num) (by norm_num), by norm_num [FLT_MAX],
        by norm_num [FLT_MAX]⟩
    have e7 : Binary32.isFloat (8 : ℚ) :=
      ⟨fround_exact _ 0 8 (by norm_num) (by norm_num) (by norm_num), by norm_num [FLT_MAX],
        by norm_num [FLT_MAX]⟩
    have e8 : Binary32.isFloat (1 / 2 : ℚ) :=
      ⟨fround_exact _ (-1) 1 (by norm_num) (by norm_num) (by norm_num), by norm_num [FLT_MAX],
        by norm_num [FLT_MAX]⟩
    have e9 : Binary32.isFloat (1 / 4 : ℚ) :=
      ⟨fround_exact _ (-2) 1 (by norm_num) (by norm_num) (by norm_num), by norm_num [FLT_MAX],
        by norm_num [FLT_MAX]⟩
    norm_num [Binary32.exactAt, Vec3.smul, Vec3.add, e0, e1, e2, e3, e4, e5, e6, e7, e8, e9]
  exact (barycentric_correct_exact ⟨0, 0, 0⟩ ⟨4, 0, 0⟩ ⟨0, 4, 0⟩ (by norm_num [denominator])
    (1 / 2) (1 / 4) (1 / 4) (by norm_num) hex).1

theorem fround_one : Binary32.fround 1 = 1 :=
  fround_exact 1 0 1 (by norm_num) (by norm_num) (by norm_num)

theorem mulMM_one_one : Binary32.mulMM (1 : Mat4) 1 = 1 := by
  funext i j
  fin_cases i <;> fin_cases j <;>
    simp +decide [Binary32.mulMM, Matrix.one_apply, fround_zero, fround_one]

theorem mulMV_one (v : Fin 4 → ℚ) (h : ∀ i, Binary32.fround (v i) = v i) :
    Binary32.mulMV 1 v = v := by
  funext i
  fin_cases i <;> simp +decide [Binary32.mulMV, Matrix.one_apply, fround_zero, h]

/-- C11, counterexample.  With identity viewport and projection, the view
matrix `diag(3, 3, 3, 1)`, the model matrix `diag(0.15f, 0.15f, 0.15f, 1)` and
the vertex `(0.87f, 0, 0)`, the vector `r` of the right-to-left product is
`(0.3915, 0, 0, 1)` in binary32, with `r.w = 1`, but `vertexShader`, which
multiplies the four matrices first, returns `x = 0.39150003`: this is neither
`r.x / r.w` nor the exact product `3 * (0.15f * 0.87f)`.  All but one term of
every sum are zero here, so the order of the additions plays no part. -/
theorem vertexShader_counterexample :
    Binary32.transformRightToLeft ⟨⟨7298089 / 8388608, 0, 0⟩, ⟨255, 255, 255, 255⟩⟩
        ⟨(Matrix.diagonal ![5033165 / 33554432, 5033165 / 33554432, 5033165 / 33554432, 1]),
          (Matrix.diagonal ![3, 3, 3, 1]), 1, 1⟩ =
      ![821035 / 2097152, 0, 0, 1] ∧
    Binary32.vertexShader ⟨⟨7298089 / 8388608, 0, 0⟩, ⟨255, 255, 255, 255⟩⟩
        ⟨(Matrix.diagonal ![5033165 / 33554432, 5033165 / 33554432, 5033165 / 33554432, 1]),
          (Matrix.diagonal ![3, 3, 3, 1]), 1, 1⟩ =
      some ⟨⟨13136561 / 33554432, 0, 0⟩, ⟨255, 255, 255, 255⟩⟩ ∧
    (13136561 / 33554432 : ℚ) ≠ Binary32.fround (821035 / 2097152 / 1) ∧
    (13136561 / 33554432 : ℚ) ≠ 3 * (5033165 / 33554432 * (7298089 / 8388608)) := by
  have e0 : Binary32.fround (1 : ℚ) = (1 : ℚ) :=
    fround_exact _ 0 1 (by norm_num) (by norm_num) (by norm_num)
  have e1 : Binary32.fround (0 : ℚ) = (0 : ℚ) :=
    fround_zero
  have e2 : Binary32.fround (3 : ℚ) = (3 : ℚ) :=
    fround_exact _ 0 3 (by norm_num) (by norm_num) (by norm_num)
  have e3 : Binary32.fround (15099495 / 33554432 : ℚ) = (15099495 / 33554432 : ℚ) :=
    fround_exact _ (-25) 15099495 (by norm_num) (by norm_num) (by norm_num)
  have e4 : Binary32.fround (110197458365055 / 281474976710656 : ℚ) = (13136561 / 33554432 : ℚ) :=
    (fround_near _ (-25) 13136561 (Or.inl (by norm_num)) (by norm_num) (by norm_num)).trans
      (by norm_num)
  have e5 : Binary32.fround (13136561 / 33554432 : ℚ) = (13136561 / 33554432 : ℚ) :=
    fround_exact _ (-25) 13136561 (by norm_num) (by norm_num) (by norm_num)
  have e6 : Binary32.fround (36732486121685 / 281474976710656 : ℚ) = (8757707 / 67108864 : ℚ) :=
    (fround_near _ (-26) 8757707 (Or.inl (by norm_num)) (by norm_num) (by norm_num)).trans
      (by norm_num)
  have e7 : Binary32.fround (8757707 / 67108864 : ℚ) = (8757707 / 67108864 : ℚ) :=
    fround_exact _ (-26) 8757707 (by norm_num) (by norm_num) (by norm_num)
  have e8 : Binary32.fround (26273121 / 67108864 : ℚ) = (821035 / 2097152 : ℚ) :=
    (fround_tie _ (-25) 13136560 (Or.inl (by norm_num)) (by norm_num) (Or.inl (by norm_num))
      (by norm_num)).trans (by norm_num)
  have e9 : Binary32.fround (821035 / 2097152 : ℚ) = (821035 / 2097152 : ℚ) :=
    fround_exact _ (-21) 821035 (by norm_num) (by norm_num) (by norm_num)
  have hM1 : Binary32.mulMM (1 : Mat4) 1 = 1 := mulMM_one_one
  have hM2 : Binary32.mulMM (1 : Mat4) (Matrix.diagonal ![3, 3, 3, 1]) =
      (Matrix.diagonal ![3, 3, 3, 1]) := by
    funext i j
    fin_cases i <;> fin_cases j <;> simp +decide [Binary32.mulMM, Matrix.diagonal,
      Matrix.one_apply, e0, e1, e2, e3, e4, e5, e6, e7, e8, e9]
  have hM3 : Binary32.mulMM (Matrix.diagonal ![3, 3, 3, 1])
      (Matrix.diagonal ![5033165 / 33554432, 5033165 / 33554432, 5033165 / 33554432, 1]) =
      (Matrix.diagonal ![15099495 / 33554432, 15099495 / 33554432, 15099495 / 33554432, 1]) := by
    funext i j
    fin_cases i <;> fin_cases j <;> simp +decide [Binary32.mulMM, Matrix.diagonal,
      Matrix.one_apply, e0, e1, e2, e3, e4, e5, e6, e7, e8, e9] <;> norm_num [e0, e1, e2, e3, e4,
      e5, e6, e7, e8, e9]
  have hV : Binary32.mulMV
      (Matrix.diagonal ![15099495 / 33554432, 15099495 / 33554432, 15099495 / 33554432, 1])
      ![7298089 / 8388608, 0, 0, 1] = ![13136561 / 33554432, 0, 0, 1] := by
    funext i
    fin_cases i <;> simp +decide [Binary32.mulMV, Matrix.diagonal, Matrix.one_apply, e0, e1, e2,
      e3, e4, e5, e6, e7, e8, e9]
    norm_num [e0, e1, e2, e3, e4, e5, e6, e7, e8, e9]
  have hR1 : Binary32.mulMV
      (Matrix.diagonal ![5033165 / 33554432, 5033165 / 33554432, 5033165 / 33554432, 1])
      ![7298089 / 8388608, 0, 0, 1] = ![8757707 / 67108864, 0, 0, 1] := by
    funext i
    fin_cases i <;> simp +decide [Binary32.mulMV, Matrix.diagonal, Matrix.one_apply, e0, e1, e2,
      e3, e4, e5, e6, e7, e8, e9]
    norm_num [e0, e1, e2, e3, e4, e5, e6, e7, e8, e9]
  have hR2 : Binary32.mulMV (Matrix.diagonal ![3, 3, 3, 1]) ![8757707 / 67108864, 0, 0, 1] =
      ![821035 / 2097152, 0, 0, 1] := by
    funext i
    fin_cases i <;> simp +decide [Binary32.mulMV, Matrix.diagonal, Matrix.one_apply, e0, e1, e2,
      e3, e4, e5, e6, e7, e8, e9]
    norm_num [e0, e1, e2, e3, e4, e5, e6, e7, e8, e9]
  have hR3 : Binary32.mulMV (1 : Mat4) ![821035 / 2097152, 0, 0, 1] =
      ![821035 / 2097152, 0, 0, 1] := by
    funext i
    fin_cases i <;> simp +decide [Binary32.mulMV, Matrix.diagonal, Matrix.one_apply, e0, e1, e2,
      e3, e4, e5, e6, e7, e8, e9]
  refine ⟨?_, ?_, by norm_num [e0, e1, e2, e3, e4, e5, e6, e7, e8, e9], by norm_num⟩
  · unfold Binary32.transformRightToLeft
    simp only []
    rw [hR1, hR2, hR3, hR3]
  · unfold Binary32.vertexShader
    simp only []
    rw [hM1, hM2, hM3, hV]
    norm_num [Binary32.fdiv, e0, e1, e2, e3, e4, e5, e6, e7, e8, e9]

/-- C11 (amended).  Transform stage in binary32: when the result of every
operation of `vertexShader` is a finite binary32 number (no operation rounds,
overflows or underflows), with
`r = viewport * (projection * (view * (model * (x, y, z, 1))))` and
`r.w ≠ 0`, `vertexShader` returns the position `(r.x / r.w, r.y / r.w,
r.z / r.w)` and the colour of the input vertex; with four identity matrices
and coordinates that are finite binary32 numbers it returns the input
vertex. -/
theorem vertexShader_transform_exact (vertex : Vertex) (u : Uniform)
    (hex : Binary32.exactTransform vertex u)
    (hw : u.viewport.mulVec (u.projection.mulVec (u.view.mulVec (u.model.mulVec
      ![vertex.position.x, vertex.position.y, vertex.position.z, 1]))) 3 ≠ 0) :
    Binary32.vertexShader vertex u =
      some ⟨⟨u.viewport.mulVec (u.projection.mulVec (u.view.mulVec (u.model.mulVec
            ![vertex.position.x, vertex.position.y, vertex.position.z, 1]))) 0 /
          u.viewport.mulVec (u.projection.mulVec (u.view.mulVec (u.model.mulVec
            ![vertex.position.x, vertex.position.y, vertex.position.z, 1]))) 3,
        u.viewport.mulVec (u.projection.mulVec (u.view.mulVec (u.model.mulVec
            ![vertex.position.x, vertex.position.y, vertex.position.z, 1]))) 1 /
          u.viewport.mulVec (u.projection.mulVec (u.view.mulVec (u.model.mulVec
            ![vertex.position.x, vertex.position.y, vertex.position.z, 1]))) 3,
        u.viewport.mulVec (u.projection.mulVec (u.view.mulVec (u.model.mulVec
            ![vertex.position.x, vertex.position.y, vertex.position.z, 1]))) 2 /
          u.viewport.mulVec (u.projection.mulVec (u.view.mulVec (u.model.mulVec
            ![vertex.position.x, vertex.position.y, vertex.position.z, 1]))) 3⟩,
        vertex.color⟩ ∧
    (Binary32.isFloat vertex.position.x → Binary32.isFloat vertex.position.y →
      Binary32.isFloat vertex.position.z →
      Binary32.vertexShader vertex ⟨1, 1, 1, 1⟩ = some vertex) := by
  constructor
  · have hr : (u.viewport * u.projection * u.view * u.model).mulVec
        ![vertex.position.x, vertex.position.y, vertex.position.z, 1] =
        u.viewport.mulVec (u.projection.mulVec (u.view.mulVec (u.model.mulVec
          ![vertex.position.x, vertex.position.y, vertex.position.z, 1]))) := by
      simp only [Matrix.mulVec_mulVec, Matrix.mul_assoc]
    rw [vertexShader32_of_exactTransform vertex u hex]
    simp only [vertexShader, hr, fdiv, if_neg hw]
  · intro hx hy hz
    have hv : Binary32.mulMV 1 ![vertex.position.x, vertex.position.y, vertex.position.z, 1] =
        ![vertex.position.x, vertex.position.y, vertex.position.z, 1] := by
      refine mulMV_one _ ?_
      intro i
      fin_cases i <;> simp [hx.1, hy.1, hz.1, fround_one]
    unfold Binary32.vertexShader
    simp only []
    rw [mulMM_one_one, mulMM_one_one, mulMM_one_one, hv]
    simp [Binary32.fdiv, hx.1, hy.1, hz.1]

/-- Witness of C11: the vertex `(1, 2, 3)`, a model matrix that doubles every
coordinate, a viewport that halves `w`, identity view and projection: every
product and sum is a small integer or a half, and the result is
`(4, 8, 12)`. -/
theorem vertexShader_transform_exact_witness :
    Binary32.vertexShader ⟨⟨1, 2, 3⟩, ⟨255, 255, 255, 255⟩⟩
      ⟨(Matrix.diagonal ![2, 2, 2, 1]), 1, 1, (Matrix.diagonal ![1, 1, 1, 1 / 2])⟩ =
      some ⟨⟨4, 8, 12⟩, ⟨255, 255, 255, 255⟩⟩ := by
  have e0 : Binary32.isFloat (1 : ℚ) :=
    ⟨fround_exact _ 0 1 (by norm_num) (by norm_num) (by norm_num), by norm_num [FLT_MAX],
      by norm_num [FLT_MAX]⟩
  have e1 : Binary32.isFloat (0 : ℚ) :=
    ⟨fround_zero, by norm_num [FLT_MAX], by norm_num [FLT_MAX]⟩
  have e2 : Binary32.isFloat (1 / 2 : ℚ) :=
    ⟨fround_exact _ (-1) 1 (by norm_num) (by norm_num) (by norm_num), by norm_num [FLT_MAX],
      by norm_num [FLT_MAX]⟩
  have e3 : Binary32.isFloat (2 : ℚ) :=
    ⟨fround_exact _ 0 2 (by norm_num) (by norm_num) (by norm_num), by norm_num [FLT_MAX],
      by norm_num [FLT_MAX]⟩
  have e4 : Binary32.isFloat (4 : ℚ) :=
    ⟨fround_exact _ 0 4 (by norm_num) (by norm_num) (by norm_num), by norm_num [FLT_MAX],
      by norm_num [FLT_MAX]⟩
  have e5 : Binary32.isFloat (6 : ℚ) :=
    ⟨fround_exact _ 0 6 (by norm_num) (by norm_num) (by norm_num), by norm_num [FLT_MAX],
      by norm_num [FLT_MAX]⟩
  have e6 : Binary32.isFloat (8 : ℚ) :=
    ⟨fround_exact _ 0 8 (by norm_num) (by norm_num) (by norm_num), by norm_num [FLT_MAX],
      by norm_num [FLT_MAX]⟩
  have e7 : Binary32.isFloat (12 : ℚ) :=
    ⟨fround_exact _ 0 12 (by norm_num) (by norm_num) (by norm_num), by norm_num [FLT_MAX],
      by norm_num [FLT_MAX]⟩
  have h2 : Binary32.isFloat (2⁻¹ : ℚ) := by
    rw [← one_div]
    exact e2
  have hr : (Matrix.diagonal ![1, 1, 1, 1 / 2] : Mat4).mulVec ((1 : Mat4).mulVec
      ((1 : Mat4).mulVec ((Matrix.diagonal ![2, 2, 2, 1] : Mat4).mulVec ![1, 2, 3, 1]))) =
      ![2, 4, 6, 1 / 2] := by
    rw [Matrix.one_mulVec, Matrix.one_mulVec]
    ext i
    fin_cases i <;> simp [Matrix.mulVec_diagonal] <;> norm_num
  have hm : (Matrix.diagonal ![1, 1, 1, 1 / 2] : Mat4) * 1 * 1 * Matrix.diagonal ![2, 2, 2, 1] =
      Matrix.diagonal ![2, 2, 2, 1 / 2] := by
    rw [mul_one, mul_one, Matrix.diagonal_mul_diagonal]
    refine congrArg Matrix.diagonal ?_
    funext i
    fin_cases i <;> norm_num
  have hmv : (Matrix.diagonal ![2, 2, 2, 1 / 2] : Mat4).mulVec ![1, 2, 3, 1] =
      ![2, 4, 6, 1 / 2] := by
    ext i
    fin_cases i <;> simp [Matrix.mulVec_diagonal] <;> norm_num
  have hex : Binary32.exactTransform ⟨⟨1, 2, 3⟩, ⟨255, 255, 255, 255⟩⟩
      ⟨(Matrix.diagonal ![2, 2, 2, 1]), 1, 1, (Matrix.diagonal ![1, 1, 1, 1 / 2])⟩ := by
    refine ⟨?_, ?_, ?_, ?_, ?_⟩
    · intro i j
      fin_cases i <;> fin_cases j <;>
        simp +decide [Matrix.diagonal, Matrix.one_apply, e0, e1, e2, e3, e4, e5, e6, e7, h2]
    · show Binary32.exactMM ((Matrix.diagonal ![1, 1, 1, 1 / 2] : Mat4) * 1) 1
      rw [mul_one]
      intro i j
      fin_cases i <;> fin_cases j <;>
        simp +decide [Matrix.diagonal, Matrix.one_apply, e0, e1, e2, e3, e4, e5, e6, e7, h2]
    · show Binary32.exactMM ((Matrix.diagonal ![1, 1, 1, 1 / 2] : Mat4) * 1 * 1)
        (Matrix.diagonal ![2, 2, 2, 1])
      rw [mul_one, mul_one]
      intro i j
      fin_cases i <;> fin_cases j <;>
        simp +decide [Matrix.diagonal, Matrix.one_apply, e0, e1, e2, e3, e4, e5, e6, e7, h2]
    · show Binary32.exactMV ((Matrix.diagonal ![1, 1, 1, 1 / 2] : Mat4) * 1 * 1 *
        Matrix.diagonal ![2, 2, 2, 1]) ![1, 2, 3, 1]
      rw [hm]
      intro i
      fin_cases i <;> simp +decide [Matrix.diagonal, e0, e1, e2, e3, e4, e5, e6, e7, h2] <;>
        norm_num [e0, e1, e2, e3, e4, e5, e6, e7, h2]
    · show ∀ i : Fin 4, Binary32.isFloat
        (((Matrix.diagonal ![1, 1, 1, 1 / 2] : Mat4) * 1 * 1 *
          Matrix.diagonal ![2, 2, 2, 1]).mulVec ![1, 2, 3, 1] i /
          ((Matrix.diagonal ![1, 1, 1, 1 / 2] : Mat4) * 1 * 1 *
            Matrix.diagonal ![2, 2, 2, 1]).mulVec ![1, 2, 3, 1] 3)
      rw [hm, hmv]
      intro i
      fin_cases i <;> simp +decide [e0, e1, e2, e3, e4, e5, e6, e7, h2] <;>
        norm_num [e0, e1, e2, e3, e4, e5, e6, e7, h2]
  have key := (vertexShader_transform_exact ⟨⟨1, 2, 3⟩, ⟨255, 255, 255, 255⟩⟩
    ⟨(Matrix.diagonal ![2, 2, 2, 1]), 1, 1, (Matrix.diagonal ![1, 1, 1, 1 / 2])⟩ hex
    (by
      show (Matrix.diagonal ![1, 1, 1, 1 / 2] : Mat4).mulVec ((1 : Mat4).mulVec
        ((1 : Mat4).mulVec ((Matrix.diagonal ![2, 2, 2, 1] : Mat4).mulVec ![1, 2, 3, 1]))) 3 ≠ 0
      rw [hr]
      norm_num)).1
  rw [key]
  show some (⟨⟨(Matrix.diagonal ![1, 1, 1, 1 / 2] : Mat4).mulVec ((1 : Mat4).mulVec
      ((1 : Mat4).mulVec ((Matrix.diagonal ![2, 2, 2, 1] : Mat4).mulVec ![1, 2, 3, 1]))) 0 / _,
      _, _⟩, _⟩ : Vertex) = _
  rw [hr]
  norm_num

end SR2
